import Mathlib

/-!
Verification of the SmartTest quiz engine against its specification.

Each section shallowly embeds one part of the Python source
(`src/evaluators.py`, `src/quiz_controller.py`, `src/problems/*/…`)
as executable Lean definitions and proves or refutes the spec claims
about it.  Python `int` is modelled as `ℤ` (or `ℕ` where the source
value is manifestly non-negative), Python lists as `List`, and
fallible code as `Option`/`Except`.  Wall-clock timing values returned
by the solvers are not part of any claim about move lists and are
dropped from those embeddings; where a claim *is* about timing-based
grading, the timing measurements appear as explicit inputs.
-/

namespace SmartTest

/-! ## Yes/no validation questions

`Hanoi_ValidationViability.evaluate`, `KT_ValidationViability.evaluate`
and `GC_ValidationViability.evaluate` share the same grading logic:

    user_ans_clean = user_answer.strip().lower()
    if user_ans_clean == self.correct_answer: score = 100 else: score = 0

where `self.correct_answer` is `"yes"` or `"no"`.  Python's
`str.strip`/`str.lower` are modelled directly on the character list
(for the ASCII answers involved these agree with Python). -/

/-- Python `str.lower`, character by character. -/
def pyLower (s : String) : String :=
  String.mk (s.data.map Char.toLower)

/-- Python `str.strip()`: drop whitespace from both ends. -/
def pyStrip (s : String) : String :=
  String.mk (((s.data.dropWhile Char.isWhitespace).reverse.dropWhile
    Char.isWhitespace).reverse)

/-- Score computed by the shared yes/no validation `evaluate`
(`src/problems/tower_of_hanoi/templates.py:213`,
`src/problems/knights_tour/templates.py:192`,
`src/problems/graph_coloring/templates.py:230`). -/
def yesNoValidationScore (correctAnswer : String) (userAnswer : String) : ℕ :=
  if pyLower (pyStrip userAnswer) = correctAnswer then 100 else 0

/-! ## Evaluation boundary (`QuizController.evaluate_answer_async`)

The background `evaluation_thread` wraps the call to
`question_to_evaluate.evaluate(user_answer)` in `try/except` and, on any
exception, substitutes the result
`(0, "Error", "An internal error occurred during evaluation: …")`;
the (possibly substituted) result is then handed to the callback.
The question lookup failure path returns a fixed error result as well.
The possibly-raising `evaluate` call is modelled as an `Except` value. -/

/-- The result delivered to the callback by `evaluate_answer_async`
(`src/quiz_controller.py:165-206`), as a function of the current
question (`none` models `get_current_question_instance()` returning
`None`) and of the outcome of the question instance's `evaluate`. -/
def evaluateAnswerAsyncResult (question : Option Q)
    (evaluate : Q → String → Except String (ℤ × String × String))
    (userAnswer : String) : ℤ × String × String :=
  match question with
  | none => (0, "Error", "Could not find question to evaluate.")
  | some q =>
    match evaluate q userAnswer with
    | .ok r => r
    | .error e => (0, "Error", "An internal error occurred during evaluation: " ++ e)

/-! ## Hanoi solution evaluator (`evaluate_hanoi_solution`)

`src/evaluators.py:265-325`.  The answer is modelled after the JSON
parse, as a list of integer pairs (the claim under check only concerns
answers whose moves are well-formed two-element integer lists).  The
Python comparison `len(moves) <= min_moves * 1.5` compares the exact
integer `len(moves)` with the float `min_moves * 1.5`; it is modelled
by the exact comparison `2 * len ≤ 3 * min_moves`, which agrees with
the float computation whenever `3 * min_moves` fits in a double's 53-bit
mantissa — in particular for the generator's disk range. -/

/-- `(score, is_correct)` computed by `evaluate_hanoi_solution` on an
answer that parsed to a list of integer pairs. -/
def evaluateHanoiSolution (numPegs numDisks : ℕ) (moves : List (ℤ × ℤ)) :
    ℕ × Bool :=
  let validMoves := moves.all fun m =>
    decide (0 ≤ m.1) && decide (m.1 < numPegs) &&
    decide (0 ≤ m.2) && decide (m.2 < numPegs)
  if validMoves then
    let minMoves := 2 ^ numDisks - 1
    let score : ℕ :=
      if moves.length = minMoves then 100
      else if 2 * moves.length ≤ 3 * minMoves then 80
      else 50
    (score, decide (80 ≤ score))
  else
    (0, false)

/-! ## Graph-coloring solution evaluator (`evaluate_graph_coloring_solution`)

`src/evaluators.py:365-436`.  Modelled after the JSON parse: the answer is a
list of integers (`colors`).  `len(set(colors))` is modelled as
`colors.dedup.length`.  The Python comparison
`num_colors_used <= params.num_colors - 1` is an `int` comparison and is
modelled in `ℤ` (so `num_colors = 0` gives `-1` on the right, as in
Python).  Edge endpoints index `colors`; generated instances keep them
in range, and out-of-range indices are modelled with `getD … 0`. -/

/-- `(score, is_correct)` computed by `evaluate_graph_coloring_solution`
on an answer that parsed to a list of integers. -/
def evaluateGraphColoringSolution (numVertices numColors : ℕ)
    (edges : List (ℕ × ℕ)) (colors : List ℤ) : ℕ × Bool :=
  if colors.length ≠ numVertices then (0, false)
  else if ¬ (colors.all fun c => decide (0 ≤ c) && decide (c < numColors)) then
    (0, false)
  else
    let conflicts := edges.filter fun e => colors.getD e.1 0 = colors.getD e.2 0
    if conflicts.isEmpty then
      let numColorsUsed := colors.dedup.length
      let score : ℕ :=
        if (numColorsUsed : ℤ) ≤ (numColors : ℤ) - 1 then 100 else 90
      (score, decide (90 ≤ score))
    else
      (0, false)

/-! ## Tower of Hanoi move generators

`src/problems/tower_of_hanoi/algorithms.py`.  Each solver returns
`(moves, elapsed_seconds)`; only the move list is modelled.  Pegs are
the strings `"A"`, `"B"`, `"C"` as in the source. -/

/-- The recursive 3-peg generator `solve_hanoi_recursive` (inner
`solve(count, source, destination, auxiliary)`).  The Python function
diverges on `count = 0` (it recurses to negative counts); the public
entry is only used with `n ≥ 1`, and the 0 case is modelled as the
empty move list. -/
def hanoi : ℕ → String → String → String → List (String × String)
  | 0, _, _, _ => []
  | 1, s, d, _ => [(s, d)]
  | n + 2, s, d, a =>
    hanoi (n + 1) s a d ++ [(s, d)] ++ hanoi (n + 1) a d s

/-- `solve_hanoi_recursive(n)`: move list of the root call
`solve(n, "A", "C", "B")`. -/
def solveHanoiRecursive (n : ℕ) : List (String × String) :=
  hanoi n "A" "C" "B"

/-- The explicit task stack of `solve_hanoi_iterative`: each task is
`(count, source, destination, auxiliary)`; tasks are pushed in reverse
execution order.  As with the recursion, a `count = 0` task (unreachable
from the `n ≥ 1` entry point, divergent in Python) is modelled as a
no-op. -/
def hanoiIterGo :
    List (ℕ × String × String × String) → List (String × String) →
      List (String × String)
  | [], moves => moves
  | (c, s, d, a) :: rest, moves =>
    if c = 1 then hanoiIterGo rest (moves ++ [(s, d)])
    else if c = 0 then hanoiIterGo rest moves
    else hanoiIterGo ((c - 1, s, a, d) :: (1, s, d, a) :: (c - 1, a, d, s) :: rest) moves
termination_by stack _ => (stack.map fun t => 4 ^ t.1).sum
decreasing_by
· simp only [List.map_cons, List.sum_cons]
  have h4 : 0 < 4 ^ c := pow_pos (by norm_num) c
  omega
· simp only [List.map_cons, List.sum_cons]
  have h4 : 0 < 4 ^ c := pow_pos (by norm_num) c
  omega
· simp only [List.map_cons, List.sum_cons]
  have e1 : 4 ^ c = 4 * 4 ^ (c - 1) := by
    conv_lhs => rw [show c = (c - 1) + 1 by omega]
    rw [pow_succ]; ring
  have e2 : 4 ≤ 4 ^ (c - 1) :=
    le_trans (by norm_num) (Nat.pow_le_pow_right (by norm_num) (by omega : 1 ≤ c - 1))
  omega

/-- `solve_hanoi_iterative(n)`: run the stack machine from the single
initial task `(n, "A", "C", "B")` with no moves emitted yet. -/
def solveHanoiIterative (n : ℕ) : List (String × String) :=
  hanoiIterGo [(n, "A", "C", "B")] []

/-- The peg-name table of `solve_hanoi_binary_pattern`:
`{0:"A",1:"B",2:"C"}`, replaced by `{0:"A",1:"C",2:"B"}` when the disk
count is even. -/
def pegNames (n : ℕ) (i : ℕ) : String :=
  if n % 2 = 0 then
    if i = 0 then "A" else if i = 1 then "C" else "B"
  else
    if i = 0 then "A" else if i = 1 then "B" else "C"

/-- The move sequence of the binary-pattern loop body, generalized over
the peg-name map `f`: for `i = k + 1` running from 1 to `2^n - 1`, the
move is from peg `(i & (i-1)) % 3` to peg `((i | (i-1)) + 1) % 3`
(the source also computes `disk`/`source`/`dest` values it then
discards; that dead code is not modelled). -/
def binMovesWith (f : ℕ → String) (n : ℕ) : List (String × String) :=
  (List.range (2 ^ n - 1)).map fun k =>
    (f (((k + 1) &&& k) % 3), f ((((k + 1) ||| k) + 1) % 3))

/-- `solve_hanoi_binary_pattern(n)` (note `i - 1 = k` and
`i & (i - 1) = (k+1) &&& k`). -/
def solveHanoiBinaryPattern (n : ℕ) : List (String × String) :=
  binMovesWith (pegNames n) n

/-! ## Minimax with alpha-beta pruning (`alpha_beta_pruning`)

`src/problems/minimax/algorithms.py:18-40`.  A Python `Node` is terminal
iff its `value` is not `None`; the claim's trees carry integer values
exactly at the leaves, so trees are embedded as an inductive with
integer leaves.  Python's `float("-inf")`/`float("inf")` bounds together
with integer node values live in `ℤ` extended with both infinities,
`WithBot (WithTop ℤ)`. -/

/-- Game trees: leaves carry integer values; internal nodes carry a
child list. -/
inductive GTree where
  | leaf (v : ℤ)
  | node (children : List GTree)
deriving Repr

/-- Integers with `-inf` and `+inf`, the value domain of
`alpha_beta_pruning`. -/
abbrev EI : Type := WithBot (WithTop ℤ)

/-- Embed an integer node value into the extended domain. -/
def EI.ofInt (v : ℤ) : EI := ((v : WithTop ℤ) : EI)

/-- `is_terminal(node)`: the node's `value` is not `None`. -/
def GTree.isTerminal : GTree → Bool
  | .leaf _ => true
  | .node _ => false

/-- Height of a tree: 0 at a leaf, one more than the highest child
otherwise (the claim's "tree's height"). -/
def GTree.height : GTree → ℕ
  | .leaf _ => 0
  | .node cs => 1 + (cs.attach.map fun c => GTree.height c.1).foldr max 0
decreasing_by
  have h1 := List.sizeOf_lt_of_mem c.2
  simp_arith
  omega

/-- The claim's tree shape: every internal node has at least one child
(leaves are exactly the valued nodes). -/
def GTree.wellFormed : GTree → Bool
  | .leaf _ => true
  | .node cs => !cs.isEmpty && cs.attach.all fun c => GTree.wellFormed c.1
decreasing_by
  have h1 := List.sizeOf_lt_of_mem c.2
  simp_arith
  omega

/-- Plain minimax value of a tree, modelled from the spec's words
("plain minimax … maximizing player moves first"); used as the
refinement target for `alpha_beta_pruning`. -/
def minimaxVal : GTree → Bool → EI
  | .leaf v, _ => EI.ofInt v
  | .node cs, true => ((cs.attach.map fun c => minimaxVal c.1 false).foldr max ⊥)
  | .node cs, false => ((cs.attach.map fun c => minimaxVal c.1 true).foldr min ⊤)
decreasing_by
  all_goals
    have h1 := List.sizeOf_lt_of_mem c.2
    simp_arith
    omega

mutual
/-- `alpha_beta_pruning(node, depth, alpha, beta, maximizing_player,
visited)`, returning `(value, visited)`.  A terminal node appends and
returns its value for any depth; a non-terminal node at depth 0 appends
`None` to `visited` and returns the non-numeric `None` as its value,
which poisons the caller's `max()`/`min()` — that case (excluded by the
claim's `depth ≥ height` hypothesis) is modelled as `none`. -/
def alphaBeta (t : GTree) (depth : ℕ) (α β : EI) (maxi : Bool)
    (visited : List (Option ℤ)) : Option (EI × List (Option ℤ)) :=
  match t with
  | .leaf v => some (EI.ofInt v, visited ++ [some v])
  | .node cs =>
    if depth = 0 then none
    else if maxi then abMaxLoop cs depth α β ⊥ visited
    else abMinLoop cs depth α β ⊤ visited
termination_by sizeOf t
decreasing_by
  all_goals simp_arith

/-- The maximizing child loop: running `max_eval` accumulator, `alpha`
raised after every child, break (returning the current `max_eval`) as
soon as `beta <= alpha`. -/
def abMaxLoop (cs : List GTree) (depth : ℕ) (α β maxEval : EI)
    (visited : List (Option ℤ)) : Option (EI × List (Option ℤ)) :=
  match cs with
  | [] => some (maxEval, visited)
  | c :: rest =>
    match alphaBeta c (depth - 1) α β false visited with
    | none => none
    | some (v, vis) =>
      let maxEval2 := max maxEval v
      let α2 := max α v
      if β ≤ α2 then some (maxEval2, vis)
      else abMaxLoop rest depth α2 β maxEval2 vis
termination_by sizeOf cs
decreasing_by
  all_goals simp_arith

/-- The minimizing child loop, dual to `abMaxLoop`. -/
def abMinLoop (cs : List GTree) (depth : ℕ) (α β minEval : EI)
    (visited : List (Option ℤ)) : Option (EI × List (Option ℤ)) :=
  match cs with
  | [] => some (minEval, visited)
  | c :: rest =>
    match alphaBeta c (depth - 1) α β true visited with
    | none => none
    | some (v, vis) =>
      let minEval2 := min minEval v
      let β2 := min β v
      if β2 ≤ α then some (minEval2, vis)
      else abMinLoop rest depth α β2 minEval2 vis
termination_by sizeOf cs
decreasing_by
  all_goals simp_arith
end

/-- The fail-soft window property of a single `alpha_beta_pruning` call:
with window `α < β` it returns an integer value that is an upper bound
on the minimax value when below `β` and a lower bound when above `α`. -/
def ABProp (t : GTree) : Prop :=
  ∀ (depth : ℕ) (α β : EI) (maxi : Bool) (visited : List (Option ℤ)),
    t.wellFormed = true → t.height ≤ depth → α < β →
    ∃ (z : ℤ) (vis : List (Option ℤ)),
      alphaBeta t depth α β maxi visited = some (EI.ofInt z, vis) ∧
      (EI.ofInt z < β → minimaxVal t maxi ≤ EI.ofInt z) ∧
      (α < EI.ofInt z → EI.ofInt z ≤ minimaxVal t maxi)

/-! ## N-Queens hill climbing (`solve_n_queens_hc`)

`src/problems/n_queens/algorithms.py:98-170`.  The only randomness is the
shuffled start board of each restart; those start boards are passed in
explicitly, one per restart (`max_restarts` = their number).  Board
entries are Python ints (`ℤ`); `board[r]` is modelled as `getD r 0`
(indices produced by the loops are always in range). -/

/-- `_calculate_conflicts`: number of index pairs `r < c` with
`|r - c| = |board[r] - board[c]|` (diagonal conflicts only; the source
deliberately skips the commented-out same-value check). -/
def calculateConflicts (board : List ℤ) : ℕ :=
  let n := board.length
  ((List.range n).map fun (r : ℕ) =>
    ((List.range n).filter fun (c : ℕ) =>
      decide (r < c) &&
      (((r : ℤ) - (c : ℤ)).natAbs == (board.getD r 0 - board.getD c 0).natAbs)).length).sum

/-- `_get_best_neighbor`: scan all single-entry reassignments in
row-major order, keeping the first candidate strictly better than the
best so far (starting from the input board itself). -/
def getBestNeighbor (board : List ℤ) : List ℤ :=
  let n := board.length
  ((List.range n).foldl (fun acc row =>
    (List.range n).foldl (fun acc2 col =>
      if (col : ℤ) = board.getD row 0 then acc2
      else
        let cand := board.set row (col : ℤ)
        let newConflicts := calculateConflicts cand
        if newConflicts < acc2.2 then (cand, newConflicts) else acc2) acc)
    (board, calculateConflicts board)).1

/-- The inner `while True` loop of `solve_n_queens_hc`: return the
current board once conflict-free, move to the best neighbor while it
strictly improves, otherwise give up (restart). -/
def hcClimb (board : List ℤ) : Option (List ℤ) :=
  if calculateConflicts board = 0 then some board
  else if h : calculateConflicts (getBestNeighbor board) < calculateConflicts board then
    hcClimb (getBestNeighbor board)
  else none
termination_by calculateConflicts board
decreasing_by exact h

/-- `solve_n_queens_hc`, with the shuffled start board of each restart
supplied in `starts`; returns the first successful climb's board. -/
def solveNQueensHC (starts : List (List ℤ)) : Option (List ℤ) :=
  match starts with
  | [] => none
  | s :: rest =>
    match hcClimb s with
    | some b => some b
    | none => solveNQueensHC rest

/-- `is_valid_nqueens_solution` (`src/evaluators.py:77-95`): length `N`,
all entries in `[0, N)`, no two equal, no diagonal attack. -/
def isValidNQueensSolution (N : ℕ) (solution : List ℤ) : Bool :=
  solution.length == N &&
  solution.all (fun x => decide (0 ≤ x) && decide (x < N)) &&
  ((List.range N).all fun i => (List.range N).all fun j =>
    !(decide (i < j)) ||
      (!(solution.getD i 0 == solution.getD j 0) &&
       !((solution.getD i 0 - solution.getD j 0).natAbs == j - i)))

/-! ## Fuzzy string matching and the graph-coloring algorithm race

`strings_are_similar` (`src/utils/string_matching.py`) lowercases and
strips both strings, accepts when either is a substring of the other,
and otherwise compares their Levenshtein distance (the external
`Levenshtein.distance` library call is modelled by Mathlib's
`levenshtein` with the all-ones cost structure, which computes the same
standard edit distance).

`GC_ExperimentalRace.evaluate`
(`src/problems/graph_coloring/templates.py:287-328`) runs Simple Greedy
and Welsh-Powell on the stored graph *at evaluation time*, measures
their wall-clock durations, takes the faster one as the correct answer,
and grades the user's text against it with `strings_are_similar`.  The
two measured durations are environment inputs and appear as explicit
parameters; the produced colorings are discarded by the source, so the
graph itself does not influence the score. -/

/-- Does `needle` occur at the start of `hay`? -/
def startsWithList : List Char → List Char → Bool
  | [], _ => true
  | _ :: _, [] => false
  | a :: as, b :: bs => a == b && startsWithList as bs

/-- Python's `needle in hay` substring containment. -/
def hasSubstring (needle : List Char) : List Char → Bool
  | [] => needle.isEmpty
  | h :: t => startsWithList needle (h :: t) || hasSubstring needle t

/-- `strings_are_similar(s1, s2, max_distance)`. -/
def stringsAreSimilar (s1 s2 : String) (maxDistance : ℕ) : Bool :=
  let c1 := (pyLower (pyStrip s1)).data
  let c2 := (pyLower (pyStrip s2)).data
  hasSubstring c1 c2 || hasSubstring c2 c1 ||
    levenshtein Levenshtein.defaultCost c1 c2 ≤ maxDistance

/-- `(score, correct_answer)` computed by `GC_ExperimentalRace.evaluate`
given the two wall-clock durations measured during this call. -/
def gcRaceEvaluate (userAnswer : String) (greedyTime wpTime : ℚ) : ℕ × String :=
  let correctAnswer := if greedyTime < wpTime then "Simple Greedy" else "Welsh-Powell"
  (if stringsAreSimilar userAnswer correctAnswer 3 then 100 else 0, correctAnswer)

/-! `Hanoi_ExperimentalRace.evaluate`
(`src/problems/tower_of_hanoi/templates.py:300-371`) and
`KT_ExperimentalRace.evaluate`
(`src/problems/knights_tour/templates.py:341-415`) share the same shape:
`generate` stores a random 2–3-element subset of the algorithm names in
`self.params["algorithms"]`; `evaluate` runs one thread per stored name,
collects `results[name] = time_taken`, scans the stored names for the
strictly smallest `results.get(name, inf)` (so `fastest_algo` stays
`None` when every time is `inf`), falls back to the first stored name in
that case, and grades the user's text against the winner with
`strings_are_similar` (`max_distance` 3 for Hanoi, 4 for Knight's Tour).
The duration map observed after the joins — `fun name =>
results.get(name, float("inf"))` — is the per-call timing environment
and appears as the explicit parameter `times` (a missing or failed entry
is `⊤`, Python's `inf`; the KT random-walk runner really can record
`inf`). -/

/-- The fastest-algorithm scan: fold over the stored algorithm names
with accumulator `(fastest_time, fastest_algo)` starting from
`(inf, None)`. -/
def fastestScan (algos : List String) (times : String → WithTop ℚ) :
    WithTop ℚ × Option String :=
  algos.foldl
    (fun acc name => if times name < acc.1 then (times name, some name) else acc)
    (⊤, none)

/-- `self.correct_answer = fastest_algo if fastest_algo else
algorithms_to_test[0]` (Python would raise on an empty subset; `generate`
always stores 2 or 3 names, and the empty case is modelled with a
default). -/
def raceCorrectAnswer (algos : List String) (times : String → WithTop ℚ) : String :=
  match (fastestScan algos times).2 with
  | some a => a
  | none => algos.getD 0 ""

/-- `(score, correct_answer)` computed by `Hanoi_ExperimentalRace.evaluate`
for the stored algorithm subset and this call's timing observations. -/
def hanoiRaceEvaluate (algos : List String) (times : String → WithTop ℚ)
    (userAnswer : String) : ℕ × String :=
  let correctAnswer := raceCorrectAnswer algos times
  (if stringsAreSimilar userAnswer correctAnswer 3 then 100 else 0, correctAnswer)

/-- `(score, correct_answer)` computed by `KT_ExperimentalRace.evaluate`
(identical logic with `max_distance = 4`). -/
def ktRaceEvaluate (algos : List String) (times : String → WithTop ℚ)
    (userAnswer : String) : ℕ × String :=
  let correctAnswer := raceCorrectAnswer algos times
  (if stringsAreSimilar userAnswer correctAnswer 4 then 100 else 0, correctAnswer)

/-! ## Knight's Tour solvers (`solve_kt_bt`, `solve_kt_warnsdorff`)

`src/problems/knights_tour/algorithms.py`.  The board is a list of `n`
rows of `n` Python ints, `-1` marking an unvisited square; coordinates
are `ℤ` (candidate moves may go negative before the bounds check).
Board reads/writes out of range are modelled with `getD`-defaults; they
never occur on the boards the solvers build.  The two solvers share one
depth-first search that differs only in the order in which the valid
moves of a square are tried, so the search is embedded once,
parameterized by that move ordering.  Python's mutation of `board` and
`path` with restore-on-backtrack is modelled by passing both
functionally.  The inner `solve` functions never terminate on states
Python cannot reach (a visited/off-board current square, or
`move_count > n*n`); those states are fenced off by the guard of
`ktSolveGen` and return `None`.  The returned wall-clock duration is
not modelled. -/

/-- The initial all-unvisited `n × n` board. -/
def ktBoard (n : ℕ) : List (List ℤ) :=
  List.replicate n (List.replicate n (-1))

/-- `board[r][c]` (in-range reads only on the solvers' boards). -/
def boardGet (board : List (List ℤ)) (r c : ℤ) : ℤ :=
  (board.getD r.toNat []).getD c.toNat 0

/-- `board[r][c] = v`. -/
def boardSet (board : List (List ℤ)) (r c : ℤ) (v : ℤ) : List (List ℤ) :=
  board.set r.toNat ((board.getD r.toNat []).set c.toNat v)

/-- `is_valid_move(n, board, r, c)`: on the board and unvisited. -/
def isValidMove (n : ℕ) (board : List (List ℤ)) (r c : ℤ) : Bool :=
  decide (0 ≤ r) && decide (r < n) && decide (0 ≤ c) && decide (c < n) &&
    (boardGet board r c == -1)

/-- The eight knight-move candidates, in the source's order. -/
def possibleMoves (r c : ℤ) : List (ℤ × ℤ) :=
  [(r - 2, c - 1), (r - 2, c + 1), (r - 1, c - 2), (r - 1, c + 2),
   (r + 1, c - 2), (r + 1, c + 2), (r + 2, c - 1), (r + 2, c + 1)]

/-- `get_valid_moves(n, board, r, c)`. -/
def getValidMoves (n : ℕ) (board : List (List ℤ)) (r c : ℤ) : List (ℤ × ℤ) :=
  (possibleMoves r c).filter fun m => isValidMove n board m.1 m.2

/-- `is_l_shape(r1, c1, r2, c2)`. -/
def isLShape (r1 c1 r2 c2 : ℤ) : Bool :=
  ((r1 - r2).natAbs == 2 && (c1 - c2).natAbs == 1) ||
  ((r1 - r2).natAbs == 1 && (c1 - c2).natAbs == 2)

/-- `get_onward_moves_count(r, c)` of `solve_kt_warnsdorff`. -/
def getOnwardMovesCount (n : ℕ) (board : List (List ℤ)) (r c : ℤ) : ℕ :=
  ((possibleMoves r c).filter fun m => isValidMove n board m.1 m.2).length

mutual
/-- The shared recursive `solve(r, c, move_count, path)`: mark the
current square, succeed when all squares are visited, otherwise try the
moves delivered by `order` in turn.  The guard records the invariants
Python maintains at every reachable call (current square on the board
and unvisited, `move_count ≤ n*n`). -/
def ktSolveGen (order : ℕ → List (List ℤ) → ℤ → ℤ → List (ℤ × ℤ)) (n : ℕ)
    (board : List (List ℤ)) (r c : ℤ) (count : ℕ) (path : List (ℤ × ℤ)) :
    Option (List (ℤ × ℤ)) :=
  if h : 0 ≤ r ∧ r < n ∧ 0 ≤ c ∧ c < n ∧ boardGet board r c = -1 ∧ count ≤ n * n then
    let board2 := boardSet board r c (count : ℤ)
    let path2 := path ++ [(r, c)]
    if count = n * n then some path2
    else ktFirstGen order n board2 (order n board2 r c) (count + 1) path2
  else none
termination_by (n * n + 1 - count, 0)
decreasing_by
  apply Prod.Lex.left
  omega

/-- Try each move in order, returning the first successful search. -/
def ktFirstGen (order : ℕ → List (List ℤ) → ℤ → ℤ → List (ℤ × ℤ)) (n : ℕ)
    (board : List (List ℤ)) (moves : List (ℤ × ℤ)) (count : ℕ)
    (path : List (ℤ × ℤ)) : Option (List (ℤ × ℤ)) :=
  match moves with
  | [] => none
  | m :: rest =>
    match ktSolveGen order n board m.1 m.2 count path with
    | some p => some p
    | none => ktFirstGen order n board rest count path
termination_by (n * n + 1 - count, moves.length + 1)
decreasing_by
· apply Prod.Lex.right
  omega
· apply Prod.Lex.right
  simp only [List.length_cons]
  omega
end

/-- `solve_kt_bt`'s move order: the valid moves as generated. -/
def btOrder (n : ℕ) (board : List (List ℤ)) (r c : ℤ) : List (ℤ × ℤ) :=
  getValidMoves n board r c

/-- `solve_kt_warnsdorff`'s move order: the valid moves stably sorted by
onward-move count (Python's `sorted` with a key). -/
def wdOrder (n : ℕ) (board : List (List ℤ)) (r c : ℤ) : List (ℤ × ℤ) :=
  (getValidMoves n board r c).mergeSort fun a b =>
    decide (getOnwardMovesCount n board a.1 a.2 ≤ getOnwardMovesCount n board b.1 b.2)

/-- `solve_kt_bt(n)`: move list (the wall-clock time is dropped). -/
def solveKtBt (n : ℕ) : Option (List (ℤ × ℤ)) :=
  ktSolveGen btOrder n (ktBoard n) 0 0 1 []

/-- `solve_kt_warnsdorff(n)`: move list. -/
def solveKtWarnsdorff (n : ℕ) : Option (List (ℤ × ℤ)) :=
  ktSolveGen wdOrder n (ktBoard n) 0 0 1 []

/-- On the `n × n` board. -/
def inBoard (n : ℕ) (p : ℤ × ℤ) : Prop :=
  0 ≤ p.1 ∧ p.1 < n ∧ 0 ≤ p.2 ∧ p.2 < n

instance (n : ℕ) (p : ℤ × ℤ) : Decidable (inBoard n p) :=
  inferInstanceAs (Decidable (0 ≤ p.1 ∧ p.1 < n ∧ 0 ≤ p.2 ∧ p.2 < n))

/-- Full-path Knight's Tour validation (spec 4.1): `n*n` squares, all on
the board, pairwise distinct, consecutive squares a knight's move
apart. -/
def isValidTour (n : ℕ) (path : List (ℤ × ℤ)) : Prop :=
  path.length = n * n ∧ (∀ p ∈ path, inBoard n p) ∧ path.Nodup ∧
    List.Chain' (fun p q => isLShape p.1 p.2 q.1 q.2 = true) path

/-! ## Knight's-tour solution evaluator (`evaluate_knights_tour_solution`)

`src/evaluators.py:478-561`.  Modelled after the JSON parse as a list of
integer pairs (the per-element two-int shape check is part of the
parse).  The third component records whether the closed-tour bonus
feedback line would be appended; `path[0] == path[-1]` is modelled with
`head?`/`getLast?` (for an empty path Python would raise instead, which
only happens when `rows*cols = 0`). -/

/-- The validation loop: bounds check, repeated-square check against the
`visited` set, and knight-move check against the previous square. -/
def ktPathValid (rows cols : ℕ) :
    List (ℤ × ℤ) → Option (ℤ × ℤ) → List (ℤ × ℤ) → Bool
  | [], _, _ => true
  | p :: rest, prev, visited =>
    if ¬ (0 ≤ p.1 ∧ p.1 < rows ∧ 0 ≤ p.2 ∧ p.2 < cols) then false
    else if p ∈ visited then false
    else
      match prev with
      | none => ktPathValid rows cols rest (some p) (p :: visited)
      | some q =>
        if ((p.1 - q.1).natAbs = 2 ∧ (p.2 - q.2).natAbs = 1) ∨
           ((p.1 - q.1).natAbs = 1 ∧ (p.2 - q.2).natAbs = 2) then
          ktPathValid rows cols rest (some p) (p :: visited)
        else false

/-- `(score, is_correct, closed_bonus)` computed by
`evaluate_knights_tour_solution` on an answer that parsed to a list of
integer pairs. -/
def evaluateKnightsTourSolution (rows cols : ℕ) (path : List (ℤ × ℤ)) :
    ℕ × Bool × Bool :=
  if path.length ≠ rows * cols then (0, false, false)
  else if ktPathValid rows cols path none [] then
    (100, true, decide (path.head? = path.getLast?))
  else (0, false, false)

end SmartTest

namespace SmartTest

/-! ### Claim C1: the three Hanoi generators

Helper lemmas: the recursive unfolding of `hanoi`, the stack machine's
meaning, bit-level facts used to split the binary-pattern index range,
and `2^n mod 3`. -/

theorem hanoi_succ (n : ℕ) (s d a : String) :
    hanoi (n + 1) s d a = hanoi n s a d ++ [(s, d)] ++ hanoi n a d s := by
  cases n with
  | zero => simp [hanoi]
  | succ m => rfl

theorem hanoi_length (n : ℕ) (s d a : String) :
    (hanoi n s d a).length = 2 ^ n - 1 := by
  induction n generalizing s d a with
  | zero => simp [hanoi]
  | succ m ih =>
    rw [hanoi_succ]
    simp only [List.length_append, List.length_cons, List.length_nil, ih]
    have h1 : 1 ≤ 2 ^ m := Nat.one_le_two_pow
    rw [pow_succ]
    omega

theorem hanoiIterGo_spec (stack : List (ℕ × String × String × String))
    (moves : List (String × String)) :
    hanoiIterGo stack moves =
      moves ++ (stack.map fun t => hanoi t.1 t.2.1 t.2.2.1 t.2.2.2).flatten := by
  induction stack, moves using hanoiIterGo.induct with
  | case1 moves => simp [hanoiIterGo]
  | case2 s d a rest moves ih =>
    rw [hanoiIterGo.eq_def]
    dsimp only
    try rw [if_pos rfl]
    rw [ih]
    simp [hanoi]
  | case3 s d a rest moves h01 ih =>
    rw [hanoiIterGo.eq_def]
    dsimp only
    rw [if_neg (by norm_num), if_pos rfl, ih]
    simp [hanoi]
  | case4 c s d a rest moves hc1 hc0 ih =>
    rw [hanoiIterGo.eq_def]
    dsimp only
    rw [if_neg hc1, if_neg hc0, ih]
    simp only [List.map_cons, List.flatten_cons]
    conv_rhs => rw [show c = (c - 1) + 1 by omega, hanoi_succ]
    simp [hanoi]

theorem solveHanoiIterative_eq_recursive (n : ℕ) :
    solveHanoiIterative n = solveHanoiRecursive n := by
  unfold solveHanoiIterative solveHanoiRecursive
  rw [hanoiIterGo_spec]
  simp

theorem two_pow_land_sub_one (n : ℕ) : 2 ^ n &&& (2 ^ n - 1) = 0 := by
  refine Nat.eq_of_testBit_eq fun i => ?_
  rw [Nat.testBit_land, Nat.testBit_two_pow, Nat.testBit_two_pow_sub_one,
    Nat.zero_testBit]
  by_cases h : n = i <;> by_cases h2 : i < n <;> simp [h, h2]

theorem two_pow_lor_sub_one (n : ℕ) : 2 ^ n ||| (2 ^ n - 1) = 2 ^ (n + 1) - 1 := by
  refine Nat.eq_of_testBit_eq fun i => ?_
  rw [Nat.testBit_lor, Nat.testBit_two_pow, Nat.testBit_two_pow_sub_one,
    Nat.testBit_two_pow_sub_one]
  by_cases h : n = i <;> by_cases h2 : i < n <;> by_cases h3 : i < n + 1 <;>
    simp [h, h2, h3] <;> omega

theorem testBit_two_pow_add_of_lt {n j : ℕ} (hj : j < 2 ^ n) :
    ∀ i, (2 ^ n + j).testBit i =
      if i < n then j.testBit i else decide (i = n) := by
  intro i
  rcases lt_trichotomy i n with h | h | h
  · rw [Nat.testBit_two_pow_add_gt h]
    simp [h]
  · subst h
    rw [Nat.testBit_two_pow_add_eq, Nat.testBit_lt_two_pow hj]
    simp
  · have hlt : 2 ^ n + j < 2 ^ i := by
      have h1 : 2 ^ (n + 1) ≤ 2 ^ i := Nat.pow_le_pow_right (by norm_num) (by omega)
      have h2 : 2 ^ n + 2 ^ n ≤ 2 ^ i := by rw [← two_mul, ← pow_succ']; omega
      omega
    have h1 : ¬ i < n := by omega
    have h2 : i ≠ n := by omega
    rw [Nat.testBit_lt_two_pow hlt]
    simp [h1, h2]

theorem two_pow_add_land {n j k : ℕ} (hj : j < 2 ^ n) (hk : k < 2 ^ n) :
    (2 ^ n + j) &&& (2 ^ n + k) = 2 ^ n + (j &&& k) := by
  have hjk : j &&& k < 2 ^ n := lt_of_le_of_lt Nat.and_le_left hj
  refine Nat.eq_of_testBit_eq fun i => ?_
  rw [Nat.testBit_land, testBit_two_pow_add_of_lt hj, testBit_two_pow_add_of_lt hk,
    testBit_two_pow_add_of_lt hjk, Nat.testBit_land]
  by_cases h : i < n <;> simp [h]

theorem two_pow_add_lor {n j k : ℕ} (hj : j < 2 ^ n) (hk : k < 2 ^ n) :
    (2 ^ n + j) ||| (2 ^ n + k) = 2 ^ n + (j ||| k) := by
  have hjk : j ||| k < 2 ^ n := Nat.or_lt_two_pow hj hk
  refine Nat.eq_of_testBit_eq fun i => ?_
  rw [Nat.testBit_lor, testBit_two_pow_add_of_lt hj, testBit_two_pow_add_of_lt hk,
    testBit_two_pow_add_of_lt hjk, Nat.testBit_lor]
  by_cases h : i < n <;> simp [h]

theorem two_pow_mod_three (n : ℕ) : 2 ^ n % 3 = if n % 2 = 0 then 1 else 2 := by
  induction n with
  | zero => norm_num
  | succ m ih =>
    rw [pow_succ]
    by_cases h : m % 2 = 0
    · rw [if_neg (by omega)]
      rw [if_pos h] at ih
      omega
    · rw [if_pos (by omega)]
      rw [if_neg h] at ih
      omega

/-- The binary-pattern move list, for an arbitrary peg map `f`, is the
recursive solution among pegs `f 0` (source), `f (2^n % 3)`
(destination) and `f (2^(n+1) % 3)` (auxiliary). -/
theorem binMovesWith_eq_hanoi (n : ℕ) :
    ∀ f : ℕ → String,
      binMovesWith f n = hanoi n (f 0) (f (2 ^ n % 3)) (f (2 ^ (n + 1) % 3)) := by
  induction n with
  | zero => intro f; simp [binMovesWith, hanoi]
  | succ m ih =>
    intro f
    have hone : 1 ≤ 2 ^ m := Nat.one_le_two_pow
    have hsplit : 2 ^ (m + 1) - 1 = 2 ^ m + (2 ^ m - 1) := by
      rw [pow_succ]; omega
    have hA : (List.range (2 ^ m)).map (fun k =>
          ((f (((k + 1) &&& k) % 3), f ((((k + 1) ||| k) + 1) % 3)) : String × String))
        = binMovesWith f m ++
          [(f (((2 ^ m - 1 + 1) &&& (2 ^ m - 1)) % 3),
            f ((((2 ^ m - 1 + 1) ||| (2 ^ m - 1)) + 1) % 3))] := by
      conv_lhs => rw [show (2 : ℕ) ^ m = (2 ^ m - 1) + 1 by omega, List.range_succ]
      rw [List.map_append]
      rfl
    have hMid : (f (((2 ^ m - 1 + 1) &&& (2 ^ m - 1)) % 3),
          f ((((2 ^ m - 1 + 1) ||| (2 ^ m - 1)) + 1) % 3))
        = (f 0, f (2 ^ (m + 1) % 3)) := by
      have h1 : 2 ^ m - 1 + 1 = 2 ^ m := by omega
      rw [h1, two_pow_land_sub_one, two_pow_lor_sub_one]
      have h2 : 2 ^ (m + 1) - 1 + 1 = 2 ^ (m + 1) := by
        have := Nat.one_le_two_pow (n := m + 1); omega
      rw [h2]
    have hC : ((List.range (2 ^ m - 1)).map (fun x => 2 ^ m + x)).map (fun k =>
          ((f (((k + 1) &&& k) % 3), f ((((k + 1) ||| k) + 1) % 3)) : String × String))
        = binMovesWith (fun i => f ((2 ^ m + i) % 3)) m := by
      rw [List.map_map, binMovesWith]
      refine List.map_congr_left ?_
      intro j hj
      have hj1 : j < 2 ^ m - 1 := List.mem_range.mp hj
      have hjlt : j < 2 ^ m := by omega
      have hj1lt : j + 1 < 2 ^ m := by omega
      show (f (((2 ^ m + j + 1) &&& (2 ^ m + j)) % 3),
          f ((((2 ^ m + j + 1) ||| (2 ^ m + j)) + 1) % 3)) = _
      have e1 : 2 ^ m + j + 1 = 2 ^ m + (j + 1) := by omega
      rw [e1, two_pow_add_land hj1lt hjlt, two_pow_add_lor hj1lt hjlt]
      refine Prod.ext (congrArg f (by omega)) (congrArg f (by omega))
    have e2 : 2 ^ (m + 1) = 2 * 2 ^ m := by rw [pow_succ]; ring
    have e4 : 2 ^ (m + 2) = 4 * 2 ^ m := by rw [pow_succ, pow_succ]; ring
    have hg0 : f ((2 ^ m + 0) % 3) = f (2 ^ m % 3) := congrArg f (by omega)
    have hgd : f ((2 ^ m + 2 ^ m % 3) % 3) = f (2 ^ (m + 1) % 3) :=
      congrArg f (by omega)
    have hga : f ((2 ^ m + 2 ^ (m + 1) % 3) % 3) = f 0 :=
      congrArg f (by omega)
    calc binMovesWith f (m + 1)
        = (List.range (2 ^ m + (2 ^ m - 1))).map (fun k =>
            (f (((k + 1) &&& k) % 3), f ((((k + 1) ||| k) + 1) % 3))) := by
          rw [binMovesWith, hsplit]
      _ = binMovesWith f m ++
            [(f 0, f (2 ^ (m + 1) % 3))] ++
            binMovesWith (fun i => f ((2 ^ m + i) % 3)) m := by
          rw [List.range_add, List.map_append, hA, hC, hMid, List.append_assoc]
      _ = hanoi m (f 0) (f (2 ^ m % 3)) (f (2 ^ (m + 1) % 3)) ++
            [(f 0, f (2 ^ (m + 1) % 3))] ++
            hanoi m (f (2 ^ m % 3)) (f (2 ^ (m + 1) % 3)) (f 0) := by
          rw [ih f, ih (fun i => f ((2 ^ m + i) % 3)), hg0, hgd, hga]
      _ = hanoi (m + 1) (f 0) (f (2 ^ (m + 1) % 3)) (f (2 ^ (m + 2) % 3)) := by
          rw [hanoi_succ]
          have h02 : 2 ^ (m + 2) % 3 = 2 ^ m % 3 := by omega
          rw [h02]

/-- The binary-pattern generator coincides with the recursive one. -/
theorem solveHanoiBinaryPattern_eq_recursive (n : ℕ) :
    solveHanoiBinaryPattern n = solveHanoiRecursive n := by
  unfold solveHanoiBinaryPattern solveHanoiRecursive
  rw [binMovesWith_eq_hanoi]
  have hs : pegNames n 0 = "A" := by
    by_cases h : n % 2 = 0 <;> simp [pegNames, h]
  have hd : pegNames n (2 ^ n % 3) = "C" := by
    rw [two_pow_mod_three]
    by_cases h : n % 2 = 0 <;> simp [pegNames, h]
  have ha : pegNames n (2 ^ (n + 1) % 3) = "B" := by
    rw [two_pow_mod_three]
    by_cases h : n % 2 = 0
    · have h1 : ¬ (n + 1) % 2 = 0 := by omega
      simp [pegNames, h, h1]
    · have h1 : (n + 1) % 2 = 0 := by omega
      simp [pegNames, h, h1]
  rw [hs, hd, ha]

/-- C1: for every disk count `n ≥ 1`, the recursive, iterative and
binary-pattern 3-peg move lists are identical element for element,
and their common length is exactly `2^n - 1`. -/
theorem c1_hanoi_generators_agree (n : ℕ) (h : 1 ≤ n) :
    solveHanoiRecursive n = solveHanoiIterative n ∧
    solveHanoiBinaryPattern n = solveHanoiRecursive n ∧
    (solveHanoiRecursive n).length = 2 ^ n - 1 ∧
    (solveHanoiIterative n).length = 2 ^ n - 1 ∧
    (solveHanoiBinaryPattern n).length = 2 ^ n - 1 := by
  have h1 := solveHanoiIterative_eq_recursive n
  have h2 := solveHanoiBinaryPattern_eq_recursive n
  have h3 : (solveHanoiRecursive n).length = 2 ^ n - 1 := hanoi_length n _ _ _
  exact ⟨h1.symm, h2, h3, by rw [h1, h3], by rw [h2, h3]⟩

/-- C1 (witness): instantiated at `n = 3`. -/
theorem c1_hanoi_generators_agree_witness :
    1 ≤ 3 ∧
    (solveHanoiRecursive 3 = solveHanoiIterative 3 ∧
      solveHanoiBinaryPattern 3 = solveHanoiRecursive 3 ∧
      (solveHanoiRecursive 3).length = 2 ^ 3 - 1 ∧
      (solveHanoiIterative 3).length = 2 ^ 3 - 1 ∧
      (solveHanoiBinaryPattern 3).length = 2 ^ 3 - 1) :=
  ⟨by decide, c1_hanoi_generators_agree 3 (by decide)⟩

/-! ### Claim C2: alpha-beta pruning computes the minimax value

The key invariant is the classic fail-soft window property: a call with
window `α < β` returns an integer value `z` with `z < β → minimax ≤ z`
and `α < z → z ≤ minimax`; with the full window `(-inf, inf)` both
bounds bite and the returned value is exactly the minimax value. -/

theorem le_foldr_max {γ : Type} [LinearOrder γ] (b : γ) (l : List γ) :
    b ≤ l.foldr max b := by
  induction l with
  | nil => exact le_refl b
  | cons x xs ih => exact le_trans ih (le_max_right x _)

theorem mem_le_foldr_max {γ : Type} [LinearOrder γ] {x : γ} {l : List γ}
    (hx : x ∈ l) (b : γ) : x ≤ l.foldr max b := by
  induction l with
  | nil => cases hx
  | cons y ys ih =>
    rcases List.mem_cons.mp hx with rfl | hx'
    · exact le_max_left x _
    · exact le_trans (ih hx') (le_max_right y _)

theorem foldr_max_le_iff {γ : Type} [LinearOrder γ] {b c : γ} {l : List γ} :
    l.foldr max b ≤ c ↔ b ≤ c ∧ ∀ x ∈ l, x ≤ c := by
  induction l with
  | nil => simp
  | cons y ys ih =>
    simp only [List.foldr_cons, max_le_iff, ih, List.mem_cons]
    constructor
    · rintro ⟨hy, hb, hall⟩
      exact ⟨hb, fun x hx => by rcases hx with rfl | hx' <;> [exact hy; exact hall x hx']⟩
    · rintro ⟨hb, hall⟩
      exact ⟨hall y (Or.inl rfl), hb, fun x hx => hall x (Or.inr hx)⟩

theorem foldr_min_le {γ : Type} [LinearOrder γ] (b : γ) (l : List γ) :
    l.foldr min b ≤ b := by
  induction l with
  | nil => exact le_refl b
  | cons x xs ih => exact le_trans (min_le_right x _) ih

theorem foldr_min_le_mem {γ : Type} [LinearOrder γ] {x : γ} {l : List γ}
    (hx : x ∈ l) (b : γ) : l.foldr min b ≤ x := by
  induction l with
  | nil => cases hx
  | cons y ys ih =>
    rcases List.mem_cons.mp hx with rfl | hx'
    · exact min_le_left x _
    · exact le_trans (min_le_right y _) (ih hx')

theorem le_foldr_min_iff {γ : Type} [LinearOrder γ] {b c : γ} {l : List γ} :
    c ≤ l.foldr min b ↔ c ≤ b ∧ ∀ x ∈ l, c ≤ x := by
  induction l with
  | nil => simp
  | cons y ys ih =>
    simp only [List.foldr_cons, le_min_iff, ih, List.mem_cons]
    constructor
    · rintro ⟨hy, hb, hall⟩
      exact ⟨hb, fun x hx => by rcases hx with rfl | hx' <;> [exact hy; exact hall x hx']⟩
    · rintro ⟨hb, hall⟩
      exact ⟨hall y (Or.inl rfl), hb, fun x hx => hall x (Or.inr hx)⟩

theorem EI.ofInt_le_ofInt {a b : ℤ} : EI.ofInt a ≤ EI.ofInt b ↔ a ≤ b := by
  unfold EI.ofInt
  rw [WithBot.coe_le_coe, WithTop.coe_le_coe]

theorem EI.ofInt_max (a b : ℤ) :
    EI.ofInt (max a b) = max (EI.ofInt a) (EI.ofInt b) := by
  rcases le_total a b with h | h
  · rw [max_eq_right h, max_eq_right (EI.ofInt_le_ofInt.mpr h)]
  · rw [max_eq_left h, max_eq_left (EI.ofInt_le_ofInt.mpr h)]

theorem EI.ofInt_min (a b : ℤ) :
    EI.ofInt (min a b) = min (EI.ofInt a) (EI.ofInt b) := by
  rcases le_total a b with h | h
  · rw [min_eq_left h, min_eq_left (EI.ofInt_le_ofInt.mpr h)]
  · rw [min_eq_right h, min_eq_right (EI.ofInt_le_ofInt.mpr h)]

theorem EI.bot_lt_ofInt (a : ℤ) : (⊥ : EI) < EI.ofInt a :=
  WithBot.bot_lt_coe _

theorem EI.ofInt_lt_top (a : ℤ) : EI.ofInt a < (⊤ : EI) :=
  WithBot.coe_lt_coe.mpr (WithTop.coe_lt_top _)

theorem minimaxVal_node_true (cs : List GTree) :
    minimaxVal (GTree.node cs) true
      = (cs.map fun c => minimaxVal c false).foldr max ⊥ := by
  rw [minimaxVal, List.attach_map_coe cs fun c => minimaxVal c false]

theorem minimaxVal_node_false (cs : List GTree) :
    minimaxVal (GTree.node cs) false
      = (cs.map fun c => minimaxVal c true).foldr min ⊤ := by
  rw [minimaxVal, List.attach_map_coe cs fun c => minimaxVal c true]

theorem wellFormed_node_iff (cs : List GTree) :
    GTree.wellFormed (GTree.node cs) = true ↔
      cs ≠ [] ∧ ∀ c ∈ cs, GTree.wellFormed c = true := by
  rw [GTree.wellFormed]
  simp [List.all_eq_true, List.isEmpty_iff]

theorem height_node_children {cs : List GTree} {d : ℕ}
    (h : GTree.height (GTree.node cs) ≤ d) :
    ∀ c ∈ cs, GTree.height c ≤ d - 1 := by
  intro c hc
  rw [GTree.height, List.attach_map_coe] at h
  have hmem : GTree.height c ∈ cs.map GTree.height := List.mem_map_of_mem _ hc
  have := mem_le_foldr_max hmem 0
  omega

theorem height_node_pos {cs : List GTree} {d : ℕ}
    (h : GTree.height (GTree.node cs) ≤ d) : d ≠ 0 := by
  rw [GTree.height] at h
  omega

/-- An induction principle for `GTree` giving the hypothesis for every
child of a node. -/
theorem GTree.inductionOn {motive : GTree → Prop} (t : GTree)
    (hleaf : ∀ v, motive (GTree.leaf v))
    (hnode : ∀ cs, (∀ c ∈ cs, motive c) → motive (GTree.node cs)) :
    motive t :=
  match t with
  | .leaf v => hleaf v
  | .node cs => hnode cs fun c hc => GTree.inductionOn c hleaf hnode
termination_by sizeOf t
decreasing_by
  have h1 := List.sizeOf_lt_of_mem hc
  simp_arith
  omega

theorem abMaxLoop_bounds (cs : List GTree) (HC : ∀ c ∈ cs, ABProp c) :
    ∀ (depth : ℕ) (α0 β maxEval : EI) (visited : List (Option ℤ)),
      (∀ c ∈ cs, GTree.wellFormed c = true ∧ GTree.height c ≤ depth - 1) →
      max α0 maxEval < β →
      (maxEval = ⊥ ∨ ∃ z : ℤ, maxEval = EI.ofInt z) →
      ∃ (v : EI) (vis : List (Option ℤ)),
        abMaxLoop cs depth (max α0 maxEval) β maxEval visited = some (v, vis) ∧
        ((∃ z : ℤ, v = EI.ofInt z) ∨ (cs = [] ∧ v = maxEval)) ∧
        (v < β → (cs.map fun c => minimaxVal c false).foldr max maxEval ≤ v) ∧
        (α0 < v → v ≤ (cs.map fun c => minimaxVal c false).foldr max maxEval) := by
  induction cs with
  | nil =>
    intro depth α0 β maxEval visited _ _ _
    refine ⟨maxEval, visited, ?_, Or.inr ⟨rfl, rfl⟩, ?_, ?_⟩
    · rw [abMaxLoop.eq_def]
    · simp
    · simp
  | cons c rest ih =>
    intro depth α0 β maxEval visited hch hαβ hME
    obtain ⟨hwfc, hhc⟩ := hch c (List.mem_cons_self c rest)
    obtain ⟨z1, vis1, heq1, cLo, cHi⟩ :=
      HC c (List.mem_cons_self c rest) (depth - 1) (max α0 maxEval) β false
        visited hwfc hhc hαβ
    obtain ⟨z2, hz2⟩ : ∃ z : ℤ, max maxEval (EI.ofInt z1) = EI.ofInt z := by
      rcases hME with rfl | ⟨z0, rfl⟩
      · exact ⟨z1, max_eq_right bot_le⟩
      · exact ⟨max z0 z1, by rw [EI.ofInt_max]⟩
    have hstep : abMaxLoop (c :: rest) depth (max α0 maxEval) β maxEval visited
        = if β ≤ max (max α0 maxEval) (EI.ofInt z1)
          then some (max maxEval (EI.ofInt z1), vis1)
          else abMaxLoop rest depth (max (max α0 maxEval) (EI.ofInt z1)) β
            (max maxEval (EI.ofInt z1)) vis1 := by
      rw [abMaxLoop.eq_def]
      dsimp only
      rw [heq1]
    by_cases hcut : β ≤ max (max α0 maxEval) (EI.ofInt z1)
    · have hβv1 : β ≤ EI.ofInt z1 := by
        rcases le_max_iff.mp hcut with h | h
        · exact absurd (lt_of_lt_of_le hαβ h) (lt_irrefl _)
        · exact h
      refine ⟨max maxEval (EI.ofInt z1), vis1, by rw [hstep, if_pos hcut],
        Or.inl ⟨z2, hz2⟩, ?_, ?_⟩
      · intro hvβ
        exact absurd (lt_of_le_of_lt (le_trans hβv1 (le_max_right _ _)) hvβ)
          (lt_irrefl β)
      · intro _
        have hv1m : EI.ofInt z1 ≤ minimaxVal c false := cHi (lt_of_lt_of_le hαβ hβv1)
        simp only [List.map_cons, List.foldr_cons]
        exact max_le (le_trans (le_foldr_max _ _) (le_max_right _ _))
          (le_trans hv1m (le_max_left _ _))
    · have hcut' := not_le.mp hcut
      have hassoc : max (max α0 maxEval) (EI.ofInt z1)
          = max α0 (max maxEval (EI.ofInt z1)) := max_assoc _ _ _
      have hαβ2 : max α0 (max maxEval (EI.ofInt z1)) < β := hassoc ▸ hcut'
      obtain ⟨v, vis, heq, hint, rLo, rHi⟩ :=
        ih (fun x hx => HC x (List.mem_cons_of_mem _ hx)) depth α0 β
          (max maxEval (EI.ofInt z1)) vis1
          (fun x hx => hch x (List.mem_cons_of_mem _ hx)) hαβ2 (Or.inr ⟨z2, hz2⟩)
      refine ⟨v, vis, ?_, ?_, ?_, ?_⟩
      · rw [hstep, if_neg hcut, hassoc]
        exact heq
      · rcases hint with h | h
        · exact Or.inl h
        · exact Or.inl ⟨z2, h.2.trans hz2⟩
      · intro hvβ
        have hM' := rLo hvβ
        rw [foldr_max_le_iff] at hM'
        obtain ⟨hbase, hall⟩ := hM'
        have hv1v : EI.ofInt z1 ≤ v := le_trans (le_max_right _ _) hbase
        have hmm : minimaxVal c false ≤ v :=
          le_trans (cLo (lt_of_le_of_lt hv1v hvβ)) hv1v
        simp only [List.map_cons, List.foldr_cons]
        exact max_le hmm (foldr_max_le_iff.mpr
          ⟨le_trans (le_max_left _ _) hbase, hall⟩)
      · intro hα0v
        have hvM' := rHi hα0v
        simp only [List.map_cons, List.foldr_cons]
        have hM'M : (rest.map fun x => minimaxVal x false).foldr max
              (max maxEval (EI.ofInt z1))
            ≤ max (EI.ofInt z1)
              (max (minimaxVal c false)
                ((rest.map fun x => minimaxVal x false).foldr max maxEval)) := by
          rw [foldr_max_le_iff]
          constructor
          · refine max_le ?_ (le_max_left _ _)
            exact le_trans (le_trans (le_foldr_max _ _) (le_max_right _ _))
              (le_max_right _ _)
          · intro x hx
            exact le_trans (le_trans (mem_le_foldr_max hx maxEval)
              (le_max_right _ _)) (le_max_right _ _)
        have hvmax := le_trans hvM' hM'M
        rcases le_max_iff.mp hvmax with hv1 | hvM
        · rcases le_or_lt (EI.ofInt z1) (max α0 maxEval) with hle | hgt
          · rcases le_max_iff.mp hle with h1 | h1
            · exact absurd (lt_of_lt_of_le hα0v (le_trans hv1 h1)) (lt_irrefl α0)
            · exact le_trans (le_trans hv1 h1)
                (le_trans (le_foldr_max _ _) (le_max_right _ _))
          · exact le_trans (le_trans hv1 (cHi hgt)) (le_max_left _ _)
        · exact hvM

theorem abMinLoop_bounds (cs : List GTree) (HC : ∀ c ∈ cs, ABProp c) :
    ∀ (depth : ℕ) (α β0 minEval : EI) (visited : List (Option ℤ)),
      (∀ c ∈ cs, GTree.wellFormed c = true ∧ GTree.height c ≤ depth - 1) →
      α < min β0 minEval →
      (minEval = ⊤ ∨ ∃ z : ℤ, minEval = EI.ofInt z) →
      ∃ (v : EI) (vis : List (Option ℤ)),
        abMinLoop cs depth α (min β0 minEval) minEval visited = some (v, vis) ∧
        ((∃ z : ℤ, v = EI.ofInt z) ∨ (cs = [] ∧ v = minEval)) ∧
        (v < β0 → (cs.map fun c => minimaxVal c true).foldr min minEval ≤ v) ∧
        (α < v → v ≤ (cs.map fun c => minimaxVal c true).foldr min minEval) := by
  induction cs with
  | nil =>
    intro depth α β0 minEval visited _ _ _
    refine ⟨minEval, visited, ?_, Or.inr ⟨rfl, rfl⟩, ?_, ?_⟩
    · rw [abMinLoop.eq_def]
    · simp
    · simp
  | cons c rest ih =>
    intro depth α β0 minEval visited hch hαβ hME
    obtain ⟨hwfc, hhc⟩ := hch c (List.mem_cons_self c rest)
    obtain ⟨z1, vis1, heq1, cLo, cHi⟩ :=
      HC c (List.mem_cons_self c rest) (depth - 1) α (min β0 minEval) true
        visited hwfc hhc hαβ
    obtain ⟨z2, hz2⟩ : ∃ z : ℤ, min minEval (EI.ofInt z1) = EI.ofInt z := by
      rcases hME with rfl | ⟨z0, rfl⟩
      · exact ⟨z1, min_eq_right le_top⟩
      · exact ⟨min z0 z1, by rw [EI.ofInt_min]⟩
    have hstep : abMinLoop (c :: rest) depth α (min β0 minEval) minEval visited
        = if min (min β0 minEval) (EI.ofInt z1) ≤ α
          then some (min minEval (EI.ofInt z1), vis1)
          else abMinLoop rest depth α (min (min β0 minEval) (EI.ofInt z1))
            (min minEval (EI.ofInt z1)) vis1 := by
      rw [abMinLoop.eq_def]
      dsimp only
      rw [heq1]
    by_cases hcut : min (min β0 minEval) (EI.ofInt z1) ≤ α
    · have hv1α : EI.ofInt z1 ≤ α := by
        rcases min_le_iff.mp hcut with h | h
        · exact absurd (lt_of_le_of_lt h hαβ) (lt_irrefl _)
        · exact h
      refine ⟨min minEval (EI.ofInt z1), vis1, by rw [hstep, if_pos hcut],
        Or.inl ⟨z2, hz2⟩, ?_, ?_⟩
      · intro _
        have hv1m : minimaxVal c true ≤ EI.ofInt z1 :=
          cLo (lt_of_le_of_lt hv1α hαβ)
        simp only [List.map_cons, List.foldr_cons]
        exact le_min (le_trans (min_le_right _ _) (foldr_min_le _ _))
          (le_trans (min_le_left _ _) hv1m)
      · intro hαv
        exact absurd (lt_of_lt_of_le hαv (le_trans (min_le_right _ _) hv1α))
          (lt_irrefl α)
    · have hcut' := not_le.mp hcut
      have hassoc : min (min β0 minEval) (EI.ofInt z1)
          = min β0 (min minEval (EI.ofInt z1)) := min_assoc _ _ _
      have hαβ2 : α < min β0 (min minEval (EI.ofInt z1)) := hassoc ▸ hcut'
      obtain ⟨v, vis, heq, hint, rLo, rHi⟩ :=
        ih (fun x hx => HC x (List.mem_cons_of_mem _ hx)) depth α β0
          (min minEval (EI.ofInt z1)) vis1
          (fun x hx => hch x (List.mem_cons_of_mem _ hx)) hαβ2 (Or.inr ⟨z2, hz2⟩)
      refine ⟨v, vis, ?_, ?_, ?_, ?_⟩
      · rw [hstep, if_neg hcut, hassoc]
        exact heq
      · rcases hint with h | h
        · exact Or.inl h
        · exact Or.inl ⟨z2, h.2.trans hz2⟩
      · intro hvβ0
        have hM' := rLo hvβ0
        simp only [List.map_cons, List.foldr_cons]
        have hM'M : min (EI.ofInt z1)
              (min (minimaxVal c true)
                ((rest.map fun x => minimaxVal x true).foldr min minEval))
            ≤ (rest.map fun x => minimaxVal x true).foldr min
              (min minEval (EI.ofInt z1)) := by
          rw [le_foldr_min_iff]
          constructor
          · refine le_min ?_ (min_le_left _ _)
            exact le_trans (min_le_right _ _)
              (le_trans (min_le_right _ _) (foldr_min_le _ _))
          · intro x hx
            exact le_trans (min_le_right _ _)
              (le_trans (min_le_right _ _) (foldr_min_le_mem hx minEval))
        have hvmin := le_trans hM'M hM'
        rcases min_le_iff.mp hvmin with hv1 | hvM
        · rcases le_or_lt (min β0 minEval) (EI.ofInt z1) with hle | hgt
          · rcases min_le_iff.mp hle with h1 | h1
            · exact absurd (lt_of_le_of_lt (le_trans h1 hv1) hvβ0) (lt_irrefl β0)
            · exact le_trans (le_trans (min_le_right _ _) (foldr_min_le _ _))
                (le_trans h1 hv1)
          · exact le_trans (le_trans (min_le_left _ _) (cLo hgt)) hv1
        · exact hvM
      · intro hαv
        have hvM' := rHi hαv
        rw [le_foldr_min_iff] at hvM'
        obtain ⟨hbase, hall⟩ := hvM'
        have hvv1 : v ≤ EI.ofInt z1 := le_trans hbase (min_le_right _ _)
        have hmm : v ≤ minimaxVal c true :=
          le_trans hvv1 (cHi (lt_of_lt_of_le hαv hvv1))
        simp only [List.map_cons, List.foldr_cons]
        exact le_min hmm (le_foldr_min_iff.mpr
          ⟨le_trans hbase (min_le_left _ _), hall⟩)

theorem alphaBeta_prop : ∀ t : GTree, ABProp t := by
  intro t
  induction t using GTree.inductionOn with
  | hleaf v =>
    intro depth α β maxi visited _ _ _
    refine ⟨v, visited ++ [some v], ?_, ?_, ?_⟩
    · rw [alphaBeta.eq_def]
    · intro _
      cases maxi <;> simp [minimaxVal]
    · intro _
      cases maxi <;> simp [minimaxVal]
  | hnode cs ihc =>
    intro depth α β maxi visited hwf hh hαβ
    obtain ⟨hne, hwfc⟩ := (wellFormed_node_iff cs).mp hwf
    have hdep : depth ≠ 0 := height_node_pos hh
    have hch : ∀ c ∈ cs, GTree.wellFormed c = true ∧ GTree.height c ≤ depth - 1 :=
      fun c hc => ⟨hwfc c hc, height_node_children hh c hc⟩
    cases maxi with
    | true =>
      have hα : max α (⊥ : EI) = α := max_eq_left bot_le
      have hαβ' : max α (⊥ : EI) < β := by rw [hα]; exact hαβ
      obtain ⟨v, vis, heq, hint, hLo, hHi⟩ :=
        abMaxLoop_bounds cs ihc depth α β ⊥ visited hch hαβ' (Or.inl rfl)
      obtain ⟨z, rfl⟩ : ∃ z : ℤ, v = EI.ofInt z := by
        rcases hint with h | h
        · exact h
        · exact absurd h.1 hne
      refine ⟨z, vis, ?_, ?_, ?_⟩
      · rw [alphaBeta.eq_def]
        dsimp only
        rw [if_neg hdep, if_pos rfl, ← hα]
        exact heq
      · intro hzβ
        rw [minimaxVal_node_true]
        exact hLo hzβ
      · intro hαz
        rw [minimaxVal_node_true]
        exact hHi hαz
    | false =>
      have hβ : min β (⊤ : EI) = β := min_eq_left le_top
      have hαβ' : α < min β (⊤ : EI) := by rw [hβ]; exact hαβ
      obtain ⟨v, vis, heq, hint, hLo, hHi⟩ :=
        abMinLoop_bounds cs ihc depth α β ⊤ visited hch hαβ' (Or.inl rfl)
      obtain ⟨z, rfl⟩ : ∃ z : ℤ, v = EI.ofInt z := by
        rcases hint with h | h
        · exact h
        · exact absurd h.1 hne
      refine ⟨z, vis, ?_, ?_, ?_⟩
      · rw [alphaBeta.eq_def]
        dsimp only
        rw [if_neg hdep, ← hβ]
        exact heq
      · intro hzβ
        rw [minimaxVal_node_false]
        exact hLo hzβ
      · intro hαz
        rw [minimaxVal_node_false]
        exact hHi hαz

theorem wellFormed_leaf (v : ℤ) : GTree.wellFormed (GTree.leaf v) = true := by
  rw [GTree.wellFormed]

theorem height_leaf (v : ℤ) : GTree.height (GTree.leaf v) = 0 := by
  rw [GTree.height]

theorem height_node (cs : List GTree) :
    GTree.height (GTree.node cs) = 1 + (cs.map GTree.height).foldr max 0 := by
  rw [GTree.height, List.attach_map_coe cs GTree.height]

/-- C2: for every game tree whose leaves carry integer values and whose
internal nodes all have children, and every depth bound at least the
tree's height, `alpha_beta_pruning(tree, d, -inf, +inf, True, [])`
returns the plain minimax value of the tree as its first component. -/
theorem c2_alpha_beta_equals_minimax (t : GTree) (d : ℕ)
    (hwf : t.wellFormed = true) (hd : t.height ≤ d) :
    (alphaBeta t d ⊥ ⊤ true []).map Prod.fst = some (minimaxVal t true) := by
  obtain ⟨z, vis, heq, hLo, hHi⟩ :=
    alphaBeta_prop t d ⊥ ⊤ true [] hwf hd bot_lt_top
  have h1 := hLo (EI.ofInt_lt_top z)
  have h2 := hHi (EI.bot_lt_ofInt z)
  rw [heq]
  simp [le_antisymm h1 h2]

/-- C2 (witness): a two-level tree with values 3 and min(1,5) = 1;
alpha-beta at its exact height with the full window returns its minimax
value. -/
theorem c2_alpha_beta_equals_minimax_witness :
    (GTree.wellFormed
        (GTree.node [GTree.leaf 3, GTree.node [GTree.leaf 1, GTree.leaf 5]]) = true ∧
      GTree.height
        (GTree.node [GTree.leaf 3, GTree.node [GTree.leaf 1, GTree.leaf 5]]) ≤ 2) ∧
    (alphaBeta (GTree.node [GTree.leaf 3, GTree.node [GTree.leaf 1, GTree.leaf 5]])
        2 ⊥ ⊤ true []).map Prod.fst
      = some (minimaxVal
          (GTree.node [GTree.leaf 3, GTree.node [GTree.leaf 1, GTree.leaf 5]]) true) := by
  have hwf : GTree.wellFormed
      (GTree.node [GTree.leaf 3, GTree.node [GTree.leaf 1, GTree.leaf 5]]) = true := by
    rw [wellFormed_node_iff]
    refine ⟨by simp, ?_⟩
    intro c hc
    simp only [List.mem_cons, List.not_mem_nil, or_false] at hc
    rcases hc with rfl | rfl
    · exact wellFormed_leaf 3
    · rw [wellFormed_node_iff]
      refine ⟨by simp, ?_⟩
      intro c' hc'
      simp only [List.mem_cons, List.not_mem_nil, or_false] at hc'
      rcases hc' with rfl | rfl
      · exact wellFormed_leaf 1
      · exact wellFormed_leaf 5
  have hh : GTree.height
      (GTree.node [GTree.leaf 3, GTree.node [GTree.leaf 1, GTree.leaf 5]]) ≤ 2 := by
    rw [height_node]
    simp [height_leaf, height_node]
  exact ⟨⟨hwf, hh⟩, c2_alpha_beta_equals_minimax _ 2 hwf hh⟩

/-! ### Claim C6: the Knight's Tour solvers

Both solvers are exhaustive depth-first searches (the Warnsdorff variant
only reorders the moves and still backtracks), so each is sound (any
returned path is a valid tour) and complete (if a tour from `(0,0)`
exists, some path is returned). -/

theorem getD_set_self {α : Type} (l : List α) (i : ℕ) (x d : α)
    (h : i < l.length) : (l.set i x).getD i d = x := by
  induction l generalizing i with
  | nil => simp at h
  | cons a t ih =>
    cases i with
    | zero => rfl
    | succ j => exact ih j (by simpa using h)

theorem getD_set_ne {α : Type} (l : List α) (i j : ℕ) (x d : α)
    (h : i ≠ j) : (l.set i x).getD j d = l.getD j d := by
  induction l generalizing i j with
  | nil => rfl
  | cons a t ih =>
    cases i with
    | zero =>
      cases j with
      | zero => exact absurd rfl h
      | succ j2 => rfl
    | succ i2 =>
      cases j with
      | zero => rfl
      | succ j2 => exact ih i2 j2 (by omega)

theorem getD_replicate {α : Type} (a d : α) :
    ∀ (n i : ℕ), i < n → (List.replicate n a).getD i d = a := by
  intro n
  induction n with
  | zero => intro i h; omega
  | succ m ih =>
    intro i h
    cases i with
    | zero => rfl
    | succ i2 => exact ih i2 (by omega)

theorem ktBoard_shape (n : ℕ) :
    (ktBoard n).length = n ∧ ∀ row ∈ ktBoard n, row.length = n := by
  constructor
  · simp [ktBoard]
  · intro row hrow
    rw [ktBoard, List.mem_replicate] at hrow
    rw [hrow.2]
    simp

theorem boardGet_ktBoard {n : ℕ} {p : ℤ × ℤ} (hp : inBoard n p) :
    boardGet (ktBoard n) p.1 p.2 = -1 := by
  obtain ⟨h1, h2, h3, h4⟩ := hp
  rw [boardGet, ktBoard, getD_replicate _ _ n p.1.toNat (by omega),
    getD_replicate _ _ n p.2.toNat (by omega)]

theorem boardSet_shape {n : ℕ} {board : List (List ℤ)}
    (hsh : board.length = n ∧ ∀ row ∈ board, row.length = n)
    {r c : ℤ} (hr : inBoard n (r, c)) (v : ℤ) :
    (boardSet board r c v).length = n ∧
      ∀ row ∈ boardSet board r c v, row.length = n := by
  obtain ⟨hlen, hrows⟩ := hsh
  obtain ⟨h1, h2, h3, h4⟩ := hr
  have hrn : r.toNat < board.length := by omega
  refine ⟨by rw [boardSet, List.length_set, hlen], ?_⟩
  intro row hrow
  rcases List.mem_or_eq_of_mem_set hrow with hmem | rfl
  · exact hrows row hmem
  · rw [List.length_set]
    exact hrows _ (by rw [List.getD_eq_getElem _ _ hrn]; exact List.getElem_mem hrn)

theorem boardGet_boardSet_self {n : ℕ} {board : List (List ℤ)}
    (hsh : board.length = n ∧ ∀ row ∈ board, row.length = n)
    {r c : ℤ} (hr : inBoard n (r, c)) (v : ℤ) :
    boardGet (boardSet board r c v) r c = v := by
  obtain ⟨hlen, hrows⟩ := hsh
  obtain ⟨h1, h2, h3, h4⟩ := hr
  have hrn : r.toNat < board.length := by omega
  have hrowmem : board.getD r.toNat [] ∈ board := by
    rw [List.getD_eq_getElem _ _ hrn]; exact List.getElem_mem hrn
  have hcl : c.toNat < (board.getD r.toNat []).length := by
    rw [hrows _ hrowmem]; omega
  rw [boardSet, boardGet, getD_set_self _ _ _ _ hrn, getD_set_self _ _ _ _ hcl]

theorem boardGet_boardSet_ne {board : List (List ℤ)}
    {r c r' c' : ℤ} (h0 : 0 ≤ r ∧ 0 ≤ c ∧ 0 ≤ r' ∧ 0 ≤ c')
    (hne : (r', c') ≠ (r, c)) (v : ℤ) :
    boardGet (boardSet board r c v) r' c' = boardGet board r' c' := by
  have hcoord : r'.toNat ≠ r.toNat ∨ c'.toNat ≠ c.toNat := by
    by_contra hcon
    push_neg at hcon
    exact hne (by ext <;> omega)
  rcases hcoord with h | h
  · rw [boardSet, boardGet, boardGet, getD_set_ne _ _ _ _ _ (fun he => h he.symm)]
  · by_cases hrr : r'.toNat = r.toNat
    · by_cases hrn : r.toNat < board.length
      · rw [boardSet, boardGet, boardGet, hrr, getD_set_self _ _ _ _ hrn,
          getD_set_ne _ _ _ _ _ (fun he => h he.symm)]
      · rw [boardSet, boardGet, boardGet]
        rw [List.set_eq_of_length_le (by omega)]
    · rw [boardSet, boardGet, boardGet, getD_set_ne _ _ _ _ _ (fun he => hrr he.symm)]

set_option maxHeartbeats 1000000 in
theorem lshape_iff_mem_possibleMoves {r c r2 c2 : ℤ} :
    isLShape r c r2 c2 = true ↔ (r2, c2) ∈ possibleMoves r c := by
  rw [isLShape, possibleMoves]
  simp only [Bool.or_eq_true, Bool.and_eq_true, beq_iff_eq, List.mem_cons,
    List.not_mem_nil, or_false, Prod.mk.injEq]
  omega

theorem mem_getValidMoves {n : ℕ} {board : List (List ℤ)} {r c : ℤ}
    {m : ℤ × ℤ} :
    m ∈ getValidMoves n board r c ↔
      m ∈ possibleMoves r c ∧ inBoard n m ∧ boardGet board m.1 m.2 = -1 := by
  rw [getValidMoves, List.mem_filter, isValidMove, inBoard]
  simp only [Bool.and_eq_true, decide_eq_true_eq, beq_iff_eq]
  tauto

theorem btOrder_perm (n : ℕ) (board : List (List ℤ)) (r c : ℤ) :
    (btOrder n board r c).Perm (getValidMoves n board r c) := by
  rw [btOrder]

theorem wdOrder_perm (n : ℕ) (board : List (List ℤ)) (r c : ℤ) :
    (wdOrder n board r c).Perm (getValidMoves n board r c) :=
  List.mergeSort_perm _ _

theorem ktSolveGen_eq (order : ℕ → List (List ℤ) → ℤ → ℤ → List (ℤ × ℤ))
    (n : ℕ) (board : List (List ℤ)) (r c : ℤ) (count : ℕ)
    (path : List (ℤ × ℤ)) :
    ktSolveGen order n board r c count path =
      if 0 ≤ r ∧ r < n ∧ 0 ≤ c ∧ c < n ∧ boardGet board r c = -1 ∧ count ≤ n * n then
        if count = n * n then some (path ++ [(r, c)])
        else ktFirstGen order n (boardSet board r c (count : ℤ))
          (order n (boardSet board r c (count : ℤ)) r c) (count + 1)
          (path ++ [(r, c)])
      else none := by
  rw [ktSolveGen.eq_def]
  split <;> rfl

theorem ktFirstGen_nil (order : ℕ → List (List ℤ) → ℤ → ℤ → List (ℤ × ℤ))
    (n : ℕ) (board : List (List ℤ)) (count : ℕ) (path : List (ℤ × ℤ)) :
    ktFirstGen order n board [] count path = none := by
  rw [ktFirstGen.eq_def]

theorem ktFirstGen_cons (order : ℕ → List (List ℤ) → ℤ → ℤ → List (ℤ × ℤ))
    (n : ℕ) (board : List (List ℤ)) (m : ℤ × ℤ) (rest : List (ℤ × ℤ))
    (count : ℕ) (path : List (ℤ × ℤ)) :
    ktFirstGen order n board (m :: rest) count path =
      match ktSolveGen order n board m.1 m.2 count path with
      | some p => some p
      | none => ktFirstGen order n board rest count path := by
  rw [ktFirstGen.eq_def]

theorem ktFirstGen_some (order : ℕ → List (List ℤ) → ℤ → ℤ → List (ℤ × ℤ))
    (n : ℕ) (board : List (List ℤ)) (count : ℕ) (path : List (ℤ × ℤ)) :
    ∀ (moves : List (ℤ × ℤ)) (p : List (ℤ × ℤ)),
      ktFirstGen order n board moves count path = some p →
      ∃ m ∈ moves, ktSolveGen order n board m.1 m.2 count path = some p := by
  intro moves
  induction moves with
  | nil => intro p hp; rw [ktFirstGen_nil] at hp; cases hp
  | cons m rest ih =>
    intro p hp
    rw [ktFirstGen_cons] at hp
    rcases hres : ktSolveGen order n board m.1 m.2 count path with _ | q
    · rw [hres] at hp
      obtain ⟨m', hm', hp'⟩ := ih p hp
      exact ⟨m', List.mem_cons_of_mem _ hm', hp'⟩
    · rw [hres] at hp
      cases hp
      exact ⟨m, List.mem_cons_self _ _, hres⟩

theorem ktFirstGen_of_mem_some (order : ℕ → List (List ℤ) → ℤ → ℤ → List (ℤ × ℤ))
    (n : ℕ) (board : List (List ℤ)) (count : ℕ) (path : List (ℤ × ℤ)) :
    ∀ (moves : List (ℤ × ℤ)) (m : ℤ × ℤ), m ∈ moves →
      (∃ p, ktSolveGen order n board m.1 m.2 count path = some p) →
      ∃ q, ktFirstGen order n board moves count path = some q := by
  intro moves
  induction moves with
  | nil => intro m hm; cases hm
  | cons m0 rest ih =>
    intro m hm ⟨p, hp⟩
    rw [ktFirstGen_cons]
    rcases hres : ktSolveGen order n board m0.1 m0.2 count path with _ | q
    · rcases List.mem_cons.mp hm with rfl | hm'
      · rw [hres] at hp; cases hp
      · obtain ⟨q, hq⟩ := ih m hm' ⟨p, hp⟩
        exact ⟨q, by rw [hq]⟩
    · exact ⟨q, rfl⟩

/-- Soundness of the shared DFS: under the invariants Python maintains
(`path` is the marked, duplicate-free, on-board knight chain leading to
the current square, `count` its length plus one), any returned path is a
valid full tour. -/
theorem ktSolveGen_sound (order : ℕ → List (List ℤ) → ℤ → ℤ → List (ℤ × ℤ))
    (horder : ∀ (n' : ℕ) (b : List (List ℤ)) (r' c' : ℤ),
      (order n' b r' c').Perm (getValidMoves n' b r' c')) :
    ∀ (k n count : ℕ) (board : List (List ℤ)) (r c : ℤ)
      (path p : List (ℤ × ℤ)),
      n * n + 1 - count ≤ k →
      (board.length = n ∧ ∀ row ∈ board, row.length = n) →
      (∀ q ∈ path, boardGet board q.1 q.2 ≠ -1) →
      path.Nodup →
      (∀ q ∈ path, inBoard n q) →
      count = path.length + 1 →
      List.Chain' (fun a b => isLShape a.1 a.2 b.1 b.2 = true) (path ++ [(r, c)]) →
      ktSolveGen order n board r c count path = some p →
      isValidTour n p := by
  intro k
  induction k with
  | zero =>
    intro n count board r c path p hk hsh hmarks hnd hinb hcount hchain hres
    rw [ktSolveGen_eq] at hres
    by_cases hg : 0 ≤ r ∧ r < (n : ℤ) ∧ 0 ≤ c ∧ c < (n : ℤ) ∧
        boardGet board r c = -1 ∧ count ≤ n * n
    · have := hg.2.2.2.2.2
      omega
    · rw [if_neg hg] at hres
      cases hres
  | succ k ih =>
    intro n count board r c path p hk hsh hmarks hnd hinb hcount hchain hres
    rw [ktSolveGen_eq] at hres
    by_cases hg : 0 ≤ r ∧ r < (n : ℤ) ∧ 0 ≤ c ∧ c < (n : ℤ) ∧
        boardGet board r c = -1 ∧ count ≤ n * n
    case neg =>
      rw [if_neg hg] at hres
      cases hres
    rw [if_pos hg] at hres
    obtain ⟨hr0, hrn, hc0, hcn, hunv, hcle⟩ := hg
    have hrcin : inBoard n (r, c) := ⟨hr0, hrn, hc0, hcn⟩
    have hrcnot : (r, c) ∉ path := fun hmem => hmarks _ hmem hunv
    have hnd2 : (path ++ [(r, c)]).Nodup := by
      rw [List.nodup_append]
      refine ⟨hnd, List.nodup_singleton _, fun a ha hb => ?_⟩
      simp only [List.mem_singleton] at hb
      exact hrcnot (hb ▸ ha)
    have hinb2 : ∀ q ∈ path ++ [(r, c)], inBoard n q := by
      intro q hq
      rcases List.mem_append.mp hq with hq' | hq'
      · exact hinb q hq'
      · simp only [List.mem_singleton] at hq'
        exact hq' ▸ hrcin
    by_cases hdone : count = n * n
    · rw [if_pos hdone] at hres
      cases hres
      refine ⟨?_, hinb2, hnd2, hchain⟩
      simp only [List.length_append, List.length_cons, List.length_nil]
      omega
    · rw [if_neg hdone] at hres
      obtain ⟨m, hmemO, hm⟩ := ktFirstGen_some _ _ _ _ _ _ p hres
      have hmemV := (horder n (boardSet board r c (count : ℤ)) r c).mem_iff.mp hmemO
      rw [mem_getValidMoves] at hmemV
      obtain ⟨hposs, hmin, hmunv⟩ := hmemV
      have hsh2 := boardSet_shape hsh hrcin (count : ℤ)
      have hmarks2 : ∀ q ∈ path ++ [(r, c)],
          boardGet (boardSet board r c (count : ℤ)) q.1 q.2 ≠ -1 := by
        intro q hq
        rcases List.mem_append.mp hq with hq' | hq'
        · have hqne : (q.1, q.2) ≠ (r, c) := fun he => hrcnot (by
            have : q = (r, c) := by rw [← he]
            exact this ▸ hq')
          rw [boardGet_boardSet_ne
            ⟨hr0, hc0, (hinb q hq').1, (hinb q hq').2.2.1⟩ hqne]
          exact hmarks q hq'
        · simp only [List.mem_singleton] at hq'
          subst hq'
          rw [boardGet_boardSet_self hsh hrcin]
          omega
      have hchain2 : List.Chain' (fun a b => isLShape a.1 a.2 b.1 b.2 = true)
          ((path ++ [(r, c)]) ++ [m]) := by
        rw [List.chain'_append]
        refine ⟨hchain, List.chain'_singleton _, ?_⟩
        intro x hx y hy
        rw [List.getLast?_concat] at hx
        simp only [List.head?_cons, Option.mem_def, Option.some.injEq] at hx hy
        subst hx
        subst hy
        exact lshape_iff_mem_possibleMoves.mpr hposs
      refine ih n (count + 1) (boardSet board r c (count : ℤ)) m.1 m.2
        (path ++ [(r, c)]) p (by omega) hsh2 hmarks2 hnd2 hinb2 ?_ hchain2 hm
      simp only [List.length_append, List.length_cons, List.length_nil]
      omega

/-- Completeness of the shared DFS: if, from the current square, some
knight chain `todo` through pairwise-distinct unvisited on-board squares
brings the move count up to `n*n`, the search succeeds (the branch given
by `todo` is explored unless an earlier branch already succeeds). -/
theorem ktSolveGen_complete (order : ℕ → List (List ℤ) → ℤ → ℤ → List (ℤ × ℤ))
    (horder : ∀ (n' : ℕ) (b : List (List ℤ)) (r' c' : ℤ),
      (order n' b r' c').Perm (getValidMoves n' b r' c')) (n : ℕ) :
    ∀ (todo : List (ℤ × ℤ)) (board : List (List ℤ)) (r c : ℤ) (count : ℕ)
      (path : List (ℤ × ℤ)),
      (board.length = n ∧ ∀ row ∈ board, row.length = n) →
      (∀ q ∈ (r, c) :: todo, boardGet board q.1 q.2 = -1) →
      ((r, c) :: todo).Nodup →
      (∀ q ∈ (r, c) :: todo, inBoard n q) →
      count + todo.length = n * n →
      List.Chain' (fun a b => isLShape a.1 a.2 b.1 b.2 = true) ((r, c) :: todo) →
      ∃ p, ktSolveGen order n board r c count path = some p := by
  intro todo
  induction todo with
  | nil =>
    intro board r c count path hsh hunv hnd hinb hcnt hch
    have hin := hinb (r, c) (List.mem_cons_self _ _)
    rw [ktSolveGen_eq, if_pos ⟨hin.1, hin.2.1, hin.2.2.1, hin.2.2.2,
      hunv _ (List.mem_cons_self _ _), by omega⟩,
      if_pos (by simpa using hcnt)]
    exact ⟨_, rfl⟩
  | cons s todo' ih =>
    intro board r c count path hsh hunv hnd hinb hcnt hch
    have hin := hinb (r, c) (List.mem_cons_self _ _)
    have hcle : count ≤ n * n := by
      simp only [List.length_cons] at hcnt
      omega
    rw [ktSolveGen_eq, if_pos ⟨hin.1, hin.2.1, hin.2.2.1, hin.2.2.2,
      hunv _ (List.mem_cons_self _ _), hcle⟩,
      if_neg (by simp only [List.length_cons] at hcnt; omega)]
    have hrcnot : (r, c) ∉ s :: todo' := (List.nodup_cons.mp hnd).1
    have hsne : (s.1, s.2) ≠ (r, c) := fun he =>
      hrcnot (by
        have : s = (r, c) := by rw [← he]
        exact this ▸ List.mem_cons_self _ _)
    have hsin := hinb s (List.mem_cons_of_mem _ (List.mem_cons_self _ _))
    have hsunv2 : boardGet (boardSet board r c (count : ℤ)) s.1 s.2 = -1 := by
      rw [boardGet_boardSet_ne ⟨hin.1, hin.2.2.1, hsin.1, hsin.2.2.1⟩ hsne]
      exact hunv s (List.mem_cons_of_mem _ (List.mem_cons_self _ _))
    obtain ⟨hRs, hch'⟩ := List.chain'_cons.mp hch
    have hmemV : s ∈ getValidMoves n (boardSet board r c (count : ℤ)) r c :=
      mem_getValidMoves.mpr ⟨lshape_iff_mem_possibleMoves.mp hRs, hsin, hsunv2⟩
    have hmemO : s ∈ order n (boardSet board r c (count : ℤ)) r c :=
      (horder n (boardSet board r c (count : ℤ)) r c).mem_iff.mpr hmemV
    have hsh2 := boardSet_shape hsh hin (count : ℤ)
    have hunv3 : ∀ q ∈ s :: todo',
        boardGet (boardSet board r c (count : ℤ)) q.1 q.2 = -1 := by
      intro q hq
      have hqne : (q.1, q.2) ≠ (r, c) := fun he =>
        hrcnot (by
          have : q = (r, c) := by rw [← he]
          exact this ▸ hq)
      rw [boardGet_boardSet_ne
        ⟨hin.1, hin.2.2.1, (hinb q (List.mem_cons_of_mem _ hq)).1,
          (hinb q (List.mem_cons_of_mem _ hq)).2.2.1⟩ hqne]
      exact hunv q (List.mem_cons_of_mem _ hq)
    obtain ⟨p, hp⟩ := ih (boardSet board r c (count : ℤ)) s.1 s.2 (count + 1)
      (path ++ [(r, c)]) hsh2 hunv3 (List.nodup_cons.mp hnd).2
      (fun q hq => hinb q (List.mem_cons_of_mem _ hq))
      (by simp only [List.length_cons] at hcnt ⊢; omega) hch'
    exact ktFirstGen_of_mem_some _ _ _ _ _ _ s hmemO ⟨p, hp⟩

/-- C6: for every board size whose open knight's tour from `(0,0)`
exists, both `solve_kt_bt` and `solve_kt_warnsdorff` return a path, and
any returned path passes full-path tour validation. -/
theorem c6_kt_solvers_find_valid_tours (n : ℕ)
    (hex : ∃ tour, isValidTour n tour ∧ tour.head? = some ((0 : ℤ), (0 : ℤ))) :
    (∃ p, solveKtBt n = some p ∧ isValidTour n p) ∧
    (∃ q, solveKtWarnsdorff n = some q ∧ isValidTour n q) := by
  obtain ⟨tour, ⟨hlen, hinb, hnd, hch⟩, hhead⟩ := hex
  rcases tour with _ | ⟨h0, todo⟩
  · cases hhead
  simp only [List.head?_cons, Option.some.injEq] at hhead
  subst hhead
  have main : ∀ order, (∀ (n' : ℕ) (b : List (List ℤ)) (r' c' : ℤ),
      (order n' b r' c').Perm (getValidMoves n' b r' c')) →
      ∃ p, ktSolveGen order n (ktBoard n) 0 0 1 [] = some p ∧ isValidTour n p := by
    intro order horder
    obtain ⟨p, hp⟩ := ktSolveGen_complete order horder n todo (ktBoard n) 0 0 1 []
      (ktBoard_shape n) (fun q hq => boardGet_ktBoard (hinb q hq)) hnd hinb
      (by simp only [List.length_cons] at hlen; omega) hch
    refine ⟨p, hp, ?_⟩
    exact ktSolveGen_sound order horder (n * n) n 1 (ktBoard n) 0 0 [] p
      (by omega) (ktBoard_shape n) (by simp) (by simp) (by simp) (by simp)
      (by simp) hp
  exact ⟨main btOrder btOrder_perm, main wdOrder wdOrder_perm⟩

/-- C6 (witness): a concrete 5×5 open tour from `(0,0)` (found by the
embedded Warnsdorff search itself), so the hypothesis holds at `n = 5`. -/
theorem c6_kt_solvers_find_valid_tours_witness :
    (∃ tour, isValidTour 5 tour ∧ tour.head? = some ((0 : ℤ), (0 : ℤ))) ∧
    ((∃ p, solveKtBt 5 = some p ∧ isValidTour 5 p) ∧
      (∃ q, solveKtWarnsdorff 5 = some q ∧ isValidTour 5 q)) := by
  have hex : ∃ tour, isValidTour 5 tour ∧ tour.head? = some ((0 : ℤ), (0 : ℤ)) := by
    refine ⟨[(0, 0), (1, 2), (0, 4), (2, 3), (4, 4), (3, 2), (4, 0), (2, 1),
      (0, 2), (1, 0), (3, 1), (4, 3), (2, 4), (0, 3), (1, 1), (3, 0), (4, 2),
      (3, 4), (1, 3), (0, 1), (2, 0), (4, 1), (2, 2), (1, 4), (3, 3)], ?_, rfl⟩
    refine ⟨by decide, by decide, by decide, ?_⟩
    simp only [List.chain'_cons, List.chain'_singleton, and_true]
    decide
  exact ⟨hex, c6_kt_solvers_find_valid_tours 5 hex⟩

/-! ### Claims C7, C8, C5, C9 -/

/-- C7 (counterexample): grading is an exact (trimmed, lowercased)
string comparison, so for a question whose correct answer is `"yes"`,
the answer `"Y"` — which case-insensitively is a prefix of `"yes"` —
is graded 0, not 100. -/
theorem c7_prefix_not_accepted :
    yesNoValidationScore "yes" "Y" = 0 ∧ yesNoValidationScore "yes" "Y" ≠ 100 := by
  constructor <;> decide

/-- C7 (amended): a yes/no validation answer is graded 100 exactly when,
after stripping surrounding whitespace and lowercasing, it equals the
stored correct answer; no prefix matching happens, so `"Y"` scores 0
while `"  YES "` scores 100 against a yes-question. -/
theorem c7_exact_match (correctAnswer userAnswer : String) :
    yesNoValidationScore correctAnswer userAnswer
      = (if pyLower (pyStrip userAnswer) = correctAnswer then 100 else 0) := by
  rfl

/-- C8: if the current question's `evaluate` raises (modelled as
`Except.error`), the result delivered to the callback has score 0 and
the generic internal-error message; the exception is absorbed at the
evaluation boundary (the delivering function is total). -/
theorem c8_internal_error_caught (q : Q)
    (evaluate : Q → String → Except String (ℤ × String × String))
    (userAnswer : String) (e : String)
    (h : evaluate q userAnswer = .error e) :
    (evaluateAnswerAsyncResult (some q) evaluate userAnswer).1 = 0 ∧
    (evaluateAnswerAsyncResult (some q) evaluate userAnswer).2.2
      = "An internal error occurred during evaluation: " ++ e := by
  simp [evaluateAnswerAsyncResult, h]

/-- C8 (witness): a concrete always-raising `evaluate` is graded as a
score-0 internal-error result. -/
theorem c8_internal_error_caught_witness :
    (evaluateAnswerAsyncResult (some ()) (fun _ _ => .error "boom") "42").1 = 0 ∧
    (evaluateAnswerAsyncResult (some ()) (fun _ _ => .error "boom") "42").2.2
      = "An internal error occurred during evaluation: " ++ "boom" :=
  c8_internal_error_caught () (fun _ _ => .error "boom") "42" "boom" rfl

/-- C5: on an answer parsing to well-formed in-range moves, the Hanoi
evaluator scores 100 when the move count equals `2^d - 1`, 80 when it
is at most 1.5 times that (but different from it), and 50 otherwise. -/
theorem c5_hanoi_score_bands (numPegs numDisks : ℕ) (moves : List (ℤ × ℤ))
    (h : ∀ m ∈ moves, 0 ≤ m.1 ∧ m.1 < numPegs ∧ 0 ≤ m.2 ∧ m.2 < numPegs) :
    ((evaluateHanoiSolution numPegs numDisks moves).1 = 100
        ↔ moves.length = 2 ^ numDisks - 1) ∧
    (moves.length ≠ 2 ^ numDisks - 1 →
      2 * moves.length ≤ 3 * (2 ^ numDisks - 1) →
      (evaluateHanoiSolution numPegs numDisks moves).1 = 80) ∧
    (moves.length ≠ 2 ^ numDisks - 1 →
      ¬ 2 * moves.length ≤ 3 * (2 ^ numDisks - 1) →
      (evaluateHanoiSolution numPegs numDisks moves).1 = 50) := by
  have hvalid : moves.all (fun m =>
      decide (0 ≤ m.1) && decide (m.1 < numPegs) &&
      decide (0 ≤ m.2) && decide (m.2 < numPegs)) = true := by
    rw [List.all_eq_true]
    intro m hm
    rcases h m hm with ⟨h1, h2, h3, h4⟩
    simp [h1, h2, h3, h4]
  unfold evaluateHanoiSolution
  rw [hvalid]
  constructor
  · by_cases hlen : moves.length = 2 ^ numDisks - 1
    · simp [hlen]
    · by_cases hband : 2 * moves.length ≤ 3 * (2 ^ numDisks - 1) <;>
        simp [hlen, hband]
  · constructor
    · intro hlen hband
      simp [hlen, hband]
    · intro hlen hband
      simp [hlen, hband]

/-- C5 (witness): with 3 disks and 3 pegs, an answer of exactly 7
in-range moves (here the optimal recursive solution on pegs 0,1,2)
scores 100. -/
theorem c5_hanoi_score_bands_witness :
    (∀ m ∈ ([((0 : ℤ), (2 : ℤ)), (0, 1), (2, 1), (0, 2), (1, 0), (1, 2), (0, 2)]),
        0 ≤ m.1 ∧ m.1 < (3 : ℕ) ∧ 0 ≤ m.2 ∧ m.2 < (3 : ℕ)) ∧
    (evaluateHanoiSolution 3 3
      [((0 : ℤ), (2 : ℤ)), (0, 1), (2, 1), (0, 2), (1, 0), (1, 2), (0, 2)]).1 = 100 := by
  refine ⟨by decide, ?_⟩
  have h := (c5_hanoi_score_bands 3 3
    [((0 : ℤ), (2 : ℤ)), (0, 1), (2, 1), (0, 2), (1, 0), (1, 2), (0, 2)]
    (by decide)).1
  exact h.mpr (by decide)

/-- C9: a parsed coloring of the right length, with all colors in range
and no conflicting edge, is always marked correct; it scores 100 exactly
when it uses at most `num_colors - 1` distinct colors, and scores 90
when it uses all `num_colors` allowed colors. -/
theorem c9_coloring_scores (numVertices numColors : ℕ)
    (edges : List (ℕ × ℕ)) (colors : List ℤ)
    (hlen : colors.length = numVertices)
    (hrange : ∀ c ∈ colors, 0 ≤ c ∧ c < numColors)
    (hconf : ∀ e ∈ edges, colors.getD e.1 0 ≠ colors.getD e.2 0) :
    (evaluateGraphColoringSolution numVertices numColors edges colors).2 = true ∧
    ((evaluateGraphColoringSolution numVertices numColors edges colors).1 = 100
      ↔ (colors.dedup.length : ℤ) ≤ (numColors : ℤ) - 1) ∧
    (colors.dedup.length = numColors →
      (evaluateGraphColoringSolution numVertices numColors edges colors).1 = 90) := by
  have hrange' : colors.all (fun c => decide (0 ≤ c) && decide (c < numColors)) = true := by
    rw [List.all_eq_true]
    intro c hc
    rcases hrange c hc with ⟨h1, h2⟩
    simp [h1, h2]
  have hempty : (edges.filter fun e =>
      colors.getD e.1 0 = colors.getD e.2 0).isEmpty = true := by
    rw [List.isEmpty_iff, List.filter_eq_nil_iff]
    intro e he
    simpa using hconf e he
  unfold evaluateGraphColoringSolution
  rw [if_neg (by simp [hlen]), if_neg (by simp [hrange']), if_pos hempty]
  refine ⟨?_, ?_, ?_⟩
  · by_cases hq : (colors.dedup.length : ℤ) ≤ (numColors : ℤ) - 1 <;> simp [hq]
  · by_cases hq : (colors.dedup.length : ℤ) ≤ (numColors : ℤ) - 1 <;> simp [hq]
  · intro hall
    have : ¬ ((colors.dedup.length : ℤ) ≤ (numColors : ℤ) - 1) := by
      rw [hall]; omega
    simp [this]

/-- C9 (witness): for the path graph 0–1–2 with 3 allowed colors, the
coloring `[0,1,0]` (2 distinct colors) is correct with score 100. -/
theorem c9_coloring_scores_witness :
    (evaluateGraphColoringSolution 3 3 [(0, 1), (1, 2)] [0, 1, 0]).2 = true ∧
    (evaluateGraphColoringSolution 3 3 [(0, 1), (1, 2)] [0, 1, 0]).1 = 100 := by
  have h := c9_coloring_scores 3 3 [(0, 1), (1, 2)] [0, 1, 0]
    (by decide) (by decide) (by decide)
  exact ⟨h.1, h.2.1.mpr (by decide)⟩

/-! ### Claim C3

The hill climber starts each restart from a permutation, but
`_get_best_neighbor` reassigns single entries, which can duplicate a
value (two queens in one column); `_calculate_conflicts` counts only
diagonal pairs, so such a board can reach "0 conflicts" and be returned.
Concretely, for `n = 2` with start shuffle `[0, 1]` the very first climb
step moves to `[1, 1]` (0 diagonal conflicts) and returns it, although
it puts both queens in column 1 — contradicting the source's own comment
that column conflicts are "not possible in this representation" and the
spec's rule against returning degenerate placeholders. -/

/-- C3 (code bug): `solve_n_queens_hc(2)`, when the restart shuffle
produces `[0, 1]`, returns the board `[1, 1]`, which is not a valid
N-Queens placement (duplicate entry = two queens in one column). -/
theorem c3_hc_returns_degenerate_board :
    solveNQueensHC [[(0 : ℤ), 1]] = some [1, 1] ∧
    isValidNQueensSolution 2 [1, 1] = false := by
  have h1 : calculateConflicts [(0 : ℤ), 1] = 1 := by decide
  have h2 : getBestNeighbor [(0 : ℤ), 1] = [1, 1] := by decide
  have h3 : calculateConflicts [(1 : ℤ), 1] = 0 := by decide
  have hc2 : hcClimb [(1 : ℤ), 1] = some [1, 1] := by
    rw [hcClimb]
    simp [h3]
  have hc1 : hcClimb [(0 : ℤ), 1] = some [1, 1] := by
    rw [hcClimb]
    rw [h1, h2, h3]
    simpa using hc2
  refine ⟨?_, by decide⟩
  simp [solveNQueensHC, hc1]

/-! ### Claim C4 -/

set_option maxRecDepth 8000 in
/-- C4 (counterexample): the race template grades against wall-clock
timings measured during the `evaluate` call itself, so the same answer
to the same generated question can score 100 on one call and 0 on the
next: with greedy measured faster the correct answer is "Simple Greedy"
(score 100 for that text), with Welsh-Powell measured faster the same
text scores 0. -/
theorem c4_race_score_depends_on_timings :
    (gcRaceEvaluate "Simple Greedy" 1 2).1 = 100 ∧
    (gcRaceEvaluate "Simple Greedy" 2 1).1 = 0 ∧
    (gcRaceEvaluate "Simple Greedy" 1 2).1 ≠ (gcRaceEvaluate "Simple Greedy" 2 1).1 := by
  refine ⟨?_, ?_, ?_⟩ <;> decide

/-- The fastest-scan fold only reads the timing map at names in the
scanned list: equal observations there give equal folds. -/
theorem raceFoldl_congr (times times2 : String → WithTop ℚ) :
    ∀ (algos : List String) (acc : WithTop ℚ × Option String),
      (∀ a ∈ algos, times a = times2 a) →
      algos.foldl
          (fun acc name => if times name < acc.1 then (times name, some name) else acc)
          acc =
        algos.foldl
          (fun acc name => if times2 name < acc.1 then (times2 name, some name) else acc)
          acc := by
  intro algos
  induction algos with
  | nil => intro acc _; rfl
  | cons a rest ih =>
      intro acc h
      simp only [List.foldl_cons]
      rw [h a (List.mem_cons_self a rest)]
      exact ih _ fun b hb => h b (List.mem_cons_of_mem a hb)

/-- Equal timing observations on the raced names give the same scan
result. -/
theorem fastestScan_congr (algos : List String) (times times2 : String → WithTop ℚ)
    (h : ∀ a ∈ algos, times a = times2 a) :
    fastestScan algos times = fastestScan algos times2 := by
  unfold fastestScan
  exact raceFoldl_congr times times2 algos (⊤, none) h

/-- The fastest-scan fold either leaves `fastest_algo` untouched or sets
it to a scanned name. -/
theorem raceFoldl_snd_mem (times : String → WithTop ℚ) :
    ∀ (algos : List String) (acc : WithTop ℚ × Option String),
      (algos.foldl
          (fun acc name => if times name < acc.1 then (times name, some name) else acc)
          acc).2 = acc.2 ∨
      ∃ a ∈ algos,
        (algos.foldl
            (fun acc name => if times name < acc.1 then (times name, some name) else acc)
            acc).2 = some a := by
  intro algos
  induction algos with
  | nil => intro acc; exact Or.inl rfl
  | cons a rest ih =>
      intro acc
      simp only [List.foldl_cons]
      by_cases hlt : times a < acc.1
      · rw [if_pos hlt]
        rcases ih (times a, some a) with h | ⟨b, hb, h⟩
        · exact Or.inr ⟨a, List.mem_cons_self a rest, h⟩
        · exact Or.inr ⟨b, List.mem_cons_of_mem a hb, h⟩
      · rw [if_neg hlt]
        rcases ih acc with h | ⟨b, hb, h⟩
        · exact Or.inl h
        · exact Or.inr ⟨b, List.mem_cons_of_mem a hb, h⟩

/-- The graded correct answer of a Hanoi/KT race — the scan winner, or
the fallback first stored name — is always one of the raced
algorithms. -/
theorem raceCorrectAnswer_mem (algos : List String) (times : String → WithTop ℚ)
    (hne : algos ≠ []) : raceCorrectAnswer algos times ∈ algos := by
  have hx : algos.getD 0 "" ∈ algos := by
    cases algos with
    | nil => exact absurd rfl hne
    | cons x rest => exact List.mem_cons_self x rest
  have hmem := raceFoldl_snd_mem times algos (⊤, none)
  unfold raceCorrectAnswer fastestScan
  rcases hmem with h | ⟨a, ha, h⟩
  · rw [h]
    exact hx
  · rw [h]
    exact ha

/-- Equal timing observations on the raced names give the same graded
correct answer. -/
theorem raceCorrectAnswer_congr (algos : List String)
    (times times2 : String → WithTop ℚ) (h : ∀ a ∈ algos, times a = times2 a) :
    raceCorrectAnswer algos times = raceCorrectAnswer algos times2 := by
  unfold raceCorrectAnswer
  rw [fastestScan_congr algos times times2 h]

/-- C4 (amended): for each of the three race templates, grading is a
deterministic function of the generated question (including the stored
algorithm subset), the answer text, and the wall-clock timings observed
during that `evaluate` call: the graph-coloring race grades alike on any
two calls whose timing comparison agrees, the Hanoi and Knight's Tour
races grade alike on any two calls with the same per-algorithm timing
observations, and in every case the graded correct answer is one of the
raced algorithms. But (by the counterexample) the score is not a
function of the question and answer alone. -/
theorem c4_race_score_determined_by_timings (algos : List String)
    (times times2 : String → WithTop ℚ) (answer : String) (g w g2 w2 : ℚ)
    (hne : algos ≠ []) (hgw : g < w ↔ g2 < w2)
    (htimes : ∀ a ∈ algos, times a = times2 a) :
    ((gcRaceEvaluate answer g w).2 = "Simple Greedy" ∨
      (gcRaceEvaluate answer g w).2 = "Welsh-Powell") ∧
    gcRaceEvaluate answer g w = gcRaceEvaluate answer g2 w2 ∧
    (hanoiRaceEvaluate algos times answer).2 ∈ algos ∧
    hanoiRaceEvaluate algos times answer = hanoiRaceEvaluate algos times2 answer ∧
    (ktRaceEvaluate algos times answer).2 ∈ algos ∧
    ktRaceEvaluate algos times answer = ktRaceEvaluate algos times2 answer := by
  refine ⟨?_, ?_, ?_, ?_, ?_, ?_⟩
  · unfold gcRaceEvaluate
    by_cases h1 : g < w <;> simp [h1]
  · unfold gcRaceEvaluate
    by_cases h1 : g < w
    · simp [h1, hgw.mp h1]
    · have h2 : ¬ g2 < w2 := fun hc => h1 (hgw.mpr hc)
      simp [h1, h2]
  · simp only [hanoiRaceEvaluate]
    exact raceCorrectAnswer_mem algos times hne
  · simp only [hanoiRaceEvaluate]
    rw [raceCorrectAnswer_congr algos times times2 htimes]
  · simp only [ktRaceEvaluate]
    exact raceCorrectAnswer_mem algos times hne
  · simp only [ktRaceEvaluate]
    rw [raceCorrectAnswer_congr algos times times2 htimes]

/-- C4 (witness): a stored Knight's Tour-style subset of two algorithm
names with concrete timings, and two graph-coloring calls both measuring
greedy as faster, grade deterministically with the winner among the
raced algorithms. -/
theorem c4_race_score_determined_by_timings_witness :
    ((["Backtracking", "Random Walk"] : List String) ≠ [] ∧
      ((1 : ℚ) < 2 ↔ (1 : ℚ) < 3) ∧
      (∀ a ∈ (["Backtracking", "Random Walk"] : List String),
        (fun x => if x = "Backtracking" then ((1 : ℚ) : WithTop ℚ) else ((2 : ℚ) : WithTop ℚ)) a =
        (fun x => if x = "Backtracking" then ((1 : ℚ) : WithTop ℚ) else ((2 : ℚ) : WithTop ℚ)) a)) ∧
    (((gcRaceEvaluate "Backtracking" 1 2).2 = "Simple Greedy" ∨
        (gcRaceEvaluate "Backtracking" 1 2).2 = "Welsh-Powell") ∧
      gcRaceEvaluate "Backtracking" 1 2 = gcRaceEvaluate "Backtracking" 1 3 ∧
      (hanoiRaceEvaluate ["Backtracking", "Random Walk"]
          (fun x => if x = "Backtracking" then ((1 : ℚ) : WithTop ℚ) else ((2 : ℚ) : WithTop ℚ))
          "Backtracking").2 ∈ (["Backtracking", "Random Walk"] : List String) ∧
      hanoiRaceEvaluate ["Backtracking", "Random Walk"]
          (fun x => if x = "Backtracking" then ((1 : ℚ) : WithTop ℚ) else ((2 : ℚ) : WithTop ℚ))
          "Backtracking" =
        hanoiRaceEvaluate ["Backtracking", "Random Walk"]
          (fun x => if x = "Backtracking" then ((1 : ℚ) : WithTop ℚ) else ((2 : ℚ) : WithTop ℚ))
          "Backtracking" ∧
      (ktRaceEvaluate ["Backtracking", "Random Walk"]
          (fun x => if x = "Backtracking" then ((1 : ℚ) : WithTop ℚ) else ((2 : ℚ) : WithTop ℚ))
          "Backtracking").2 ∈ (["Backtracking", "Random Walk"] : List String) ∧
      ktRaceEvaluate ["Backtracking", "Random Walk"]
          (fun x => if x = "Backtracking" then ((1 : ℚ) : WithTop ℚ) else ((2 : ℚ) : WithTop ℚ))
          "Backtracking" =
        ktRaceEvaluate ["Backtracking", "Random Walk"]
          (fun x => if x = "Backtracking" then ((1 : ℚ) : WithTop ℚ) else ((2 : ℚ) : WithTop ℚ))
          "Backtracking") :=
  ⟨⟨List.cons_ne_nil _ _, by norm_num, fun a _ => rfl⟩,
    c4_race_score_determined_by_timings ["Backtracking", "Random Walk"]
      (fun x => if x = "Backtracking" then ((1 : ℚ) : WithTop ℚ) else ((2 : ℚ) : WithTop ℚ))
      (fun x => if x = "Backtracking" then ((1 : ℚ) : WithTop ℚ) else ((2 : ℚ) : WithTop ℚ))
      "Backtracking" 1 2 1 3
      (List.cons_ne_nil _ _) (by norm_num) (fun a _ => rfl)⟩

/-! ### Claim C10 -/

/-- A path accepted by the validation loop has pairwise-distinct squares
and avoids everything already in `visited`. -/
theorem ktPathValid_nodup (rows cols : ℕ) :
    ∀ (l : List (ℤ × ℤ)) (prev : Option (ℤ × ℤ)) (visited : List (ℤ × ℤ)),
      ktPathValid rows cols l prev visited = true →
      l.Nodup ∧ ∀ x ∈ l, x ∉ visited := by
  intro l
  induction l with
  | nil => intro prev visited _; simp
  | cons p tl ih =>
    intro prev visited hvalid
    simp only [ktPathValid] at hvalid
    by_cases hb : 0 ≤ p.1 ∧ p.1 < rows ∧ 0 ≤ p.2 ∧ p.2 < cols
    · rw [if_neg (by simpa using hb)] at hvalid
      by_cases hv : p ∈ visited
      · rw [if_pos hv] at hvalid; exact absurd hvalid (by simp)
      · rw [if_neg hv] at hvalid
        have hrec : ktPathValid rows cols tl (some p) (p :: visited) = true := by
          match prev with
          | none => exact hvalid
          | some q =>
            dsimp only at hvalid
            by_cases hl : ((p.1 - q.1).natAbs = 2 ∧ (p.2 - q.2).natAbs = 1) ∨
                ((p.1 - q.1).natAbs = 1 ∧ (p.2 - q.2).natAbs = 2)
            · rwa [if_pos hl] at hvalid
            · rw [if_neg hl] at hvalid; exact absurd hvalid (by simp)
        obtain ⟨htl, hdisj⟩ := ih (some p) (p :: visited) hrec
        refine ⟨List.nodup_cons.mpr ⟨fun hmem => ?_, htl⟩, ?_⟩
        · exact hdisj p hmem (List.mem_cons_self _ _)
        · intro x hx
          rcases List.mem_cons.mp hx with rfl | hx'
          · exact hv
          · intro hxv
            exact hdisj x hx' (List.mem_cons_of_mem _ hxv)
    · rw [if_pos hb] at hvalid
      exact absurd hvalid (by simp)

/-- C10: with more than one board square, the closed-tour bonus branch
of `evaluate_knights_tour_solution` is unreachable: for every parsed
path, the bonus feedback flag is false, because a path passing the
exact-length and no-repeat checks cannot have equal first and last
squares. -/
theorem c10_closed_bonus_unreachable (rows cols : ℕ) (path : List (ℤ × ℤ))
    (h : 1 < rows * cols) :
    (evaluateKnightsTourSolution rows cols path).2.2 = false := by
  unfold evaluateKnightsTourSolution
  by_cases hlen : path.length = rows * cols
  · rw [if_neg (by simp [hlen])]
    by_cases hvalid : ktPathValid rows cols path none [] = true
    · rw [if_pos hvalid]
      have hnodup := (ktPathValid_nodup rows cols path none [] hvalid).1
      have hlen2 : 2 ≤ path.length := by omega
      rcases path with _ | ⟨a, _ | ⟨b, rest⟩⟩
      · simp at hlen2
      · simp at hlen2
      · show decide ((a :: b :: rest).head? = (a :: b :: rest).getLast?) = false
        rw [decide_eq_false_iff_not]
        intro heq
        rw [List.head?_cons, List.getLast?_cons_cons] at heq
        have hlast : (b :: rest).getLast? = some ((b :: rest).getLast (by simp)) :=
          List.getLast?_eq_getLast _ _
        rw [hlast] at heq
        have hmem : a ∈ b :: rest := by
          rw [Option.some.injEq] at heq
          rw [heq]
          exact List.getLast_mem _
        exact (List.nodup_cons.mp hnodup).1 hmem
    · rw [if_neg hvalid]
  · rw [if_pos hlen]

/-- C10 (witness): a concrete board with more than one square. -/
theorem c10_closed_bonus_unreachable_witness :
    1 < 2 * 2 ∧
    (evaluateKnightsTourSolution 2 2 [((0 : ℤ), (0 : ℤ)), (1, 1), (0, 1), (1, 0)]).2.2
      = false :=
  ⟨by decide,
    c10_closed_bonus_unreachable 2 2 [((0 : ℤ), (0 : ℤ)), (1, 1), (0, 1), (1, 0)]
      (by decide)⟩

end SmartTest
